import Mathlib

/-!
Verification development for the 5cns networking stack sources
(src/udp.cpp, src/igmp.cpp, src/chap_ms.cpp, src/ip6_addr.h).

The C++ sources are shallowly embedded: intrusive singly-linked lists become
Lean lists, pointer identity of UDP PCBs becomes an explicit id field, machine
integers become Nat with explicit masking where overflow matters, and the
side effects of the packet paths (recv callbacks, pbuf frees, IGMP message
transmissions, MAC-filter hook invocations) become explicit event lists.
Functions that live outside the given sources (the one's-complement checksum
engine, lwip_rand, pbuf allocation, ip6_addr_select_zone) enter as parameters
of the embedded functions.
-/

/-! ## IP address model (ip_addr / ip6_addr.h)

An lwIP IpAddr is a tagged union: IPADDR_TYPE_V4, IPADDR_TYPE_V6 or the
dual-stack wildcard IPADDR_TYPE_ANY.  An IPv6 address additionally carries a
zone index (ip6_addr.h).  IPv4 address bits and IPv6 address bits are modelled
as Nat (the IPv6 value is the 128-bit number; byte-order is immaterial for the
claims, which only compare addresses and inspect scope bits).
-/

inductive IpAddr where
  | anyType : IpAddr
  | v4 (addr : Nat) : IpAddr
  | v6 (addr : Nat) (zone : Nat) : IpAddr
deriving DecidableEq

/-- IP_IS_V6: the address is tagged IPv6. -/
def IpIsV6 : IpAddr → Bool
  | .v6 _ _ => true
  | _ => false

/-- IP_IS_V4: the address is tagged IPv4. -/
def IpIsV4 : IpAddr → Bool
  | .v4 _ => true
  | _ => false

/-- The IPv4 part of the union, as read by convert_ip_addr_to_ip4_addr; the
bits of the any-type wildcard are zero. -/
def ip4_part : IpAddr → Nat
  | .v4 a => a
  | _ => 0

/-- ip4_addr_isany on raw IPv4 bits. -/
def ip4_addr_isany (a : Nat) : Bool := a = 0

/-- ip4_addr_cmp on raw IPv4 bits. -/
def ip4_addr_cmp (a b : Nat) : Bool := a = b

/-- IP4_ADDR_BCAST, the global broadcast address 255.255.255.255. -/
def IP4_ADDR_BCAST : Nat := 0xffffffff

/-- ip4_addr_netcmp: both addresses are on the same subnet under the mask. -/
def ip4_addr_netcmp (a b mask : Nat) : Bool := a &&& mask = b &&& mask

/-- compare_ip_addr / ip_addr_cmp: exact equality of tag, bits, and (for v6)
zone, following ip6_addr_cmp of ip6_addr.h. -/
def compare_ip_addr (a b : IpAddr) : Bool := a = b

/-- is_ip_addr_any / ip_addr_isany: the dual-stack any-type wildcard or an
all-zero address of either family. -/
def is_ip_addr_any : IpAddr → Bool
  | .anyType => true
  | .v4 a => a = 0
  | .v6 a _ => a = 0

/-- ip_addr_isany_val, same predicate on a value. -/
def ip_addr_isany_val (a : IpAddr) : Bool := is_ip_addr_any a

/-- ip4_addr_ismulticast on bits: the 224.0.0.0/4 block. -/
def ip4_addr_ismulticast (a : Nat) : Bool := a >>> 28 = 0xe

/-- ip6_addr_ismulticast on 128-bit value: first byte 0xff. -/
def ip6_addr_ismulticast_bits (a : Nat) : Bool := a >>> 120 = 0xff

/-- ip_addr_ismulticast over the tagged union. -/
def ip_addr_ismulticast : IpAddr → Bool
  | .anyType => false
  | .v4 a => ip4_addr_ismulticast a
  | .v6 a _ => ip6_addr_ismulticast_bits a

/-- ip6_addr_islinklocal (ip6_addr.h): addr[0] & 0xffc00000 == 0xfe800000,
stated on the top 32 bits of the 128-bit value. -/
def ip6_addr_islinklocal_bits (a : Nat) : Bool :=
  (a >>> 96) &&& 0xffc00000 = 0xfe800000

/-- ip6_addr_ismulticast_iflocal (ip6_addr.h). -/
def ip6_addr_ismulticast_iflocal_bits (a : Nat) : Bool :=
  (a >>> 96) &&& 0xff8f0000 = 0xff010000

/-- ip6_addr_ismulticast_linklocal (ip6_addr.h). -/
def ip6_addr_ismulticast_linklocal_bits (a : Nat) : Bool :=
  (a >>> 96) &&& 0xff8f0000 = 0xff020000

/-- ip6_addr_has_scope with type IP6_UNKNOWN (ip6_addr.h): link-local
unicast, interface-local multicast or link-local multicast. -/
def ip6_addr_has_scope_unknown (a : Nat) : Bool :=
  ip6_addr_islinklocal_bits a || ip6_addr_ismulticast_iflocal_bits a ||
    ip6_addr_ismulticast_linklocal_bits a

/-- ip6_addr_lacks_zone with IP6_UNKNOWN, lifted to the tagged union as used
in udp_bind: a v6 address that is scoped but has no zone. -/
def ip_addr_lacks_zone : IpAddr → Bool
  | .v6 a z => z = 0 && ip6_addr_has_scope_unknown a
  | _ => false

/-- IP_GET_TYPE tags, for IP_ADDR_PCB_VERSION_MATCH_EXACT
(match_exact_ip_addr_pcb_vers): IPADDR_TYPE_V4 = 0, IPADDR_TYPE_V6 = 6,
IPADDR_TYPE_ANY = 46. -/
def ip_get_type : IpAddr → Nat
  | .anyType => 46
  | .v4 _ => 0
  | .v6 _ _ => 6

/-- match_exact_ip_addr_pcb_vers: the PCB-local address and the packet
address carry the same type tag. -/
def match_exact_ip_addr_pcb_vers (local_ip dst : IpAddr) : Bool :=
  ip_get_type local_ip = ip_get_type dst

/-! ## UDP endpoint model (udp.cpp)

A UdpPcb is a heap object linked into the global udp_pcbs list; the id field
stands for its pointer identity.  The option flags that the claims touch are
individual Bools; has_recv models whether the recv callback is non-null.
-/

structure UdpPcb where
  id : Nat
  local_ip : IpAddr
  local_port : Nat
  remote_ip : IpAddr
  remote_port : Nat
  netif_idx : Nat
  so_broadcast : Bool
  so_reuseaddr : Bool
  connected : Bool
  nochksum : Bool
  udplite : Bool
  has_recv : Bool
deriving DecidableEq

/-- A network interface, to the extent the UDP claims read it: its index,
its IPv4 address and netmask, and the 128-bit values of its IPv6 addresses
(netif_get_ip6_addr_match only needs membership here). -/
structure NetIfc where
  idx : Nat
  ip4 : Nat
  netmask4 : Nat
  ip6_addrs : List Nat
deriving DecidableEq

/-! ## C1: transmit checksum of udp_sendto_if_src_chksum (udp.cpp 690-891)

The embedded function computes the value of udphdr->chksum in the packet
handed to ip_output_if_src.  The checksum engine (ip_chksum_pseudo /
ip_chksum_pseudo_partial) is outside the given sources; its 16-bit result
enters as the parameter pseudo.  The field starts as 0x0000 ("no checksum")
and is overwritten along the branches of the source.
-/

/-- FOLD_U32T: add the carries above bit 16 back into the low 16 bits. -/
def fold_u32 (acc : Nat) : Nat := (acc >>> 16) + (acc % 65536)

/-- The checksum value computed inside the generation branches: the
pseudo-header checksum, combined with the caller-supplied chksum when
have_chksum is set (acc = udpchksum + (uint16_t)~chksum; FOLD_U32T). -/
def udp_computed_chksum (have_chksum : Bool) (chksum pseudo : Nat) : Nat :=
  if have_chksum then fold_u32 (pseudo + (65535 - chksum % 65536)) else pseudo

/-- The transmitted udphdr->chksum field produced by
udp_sendto_if_src_chksum for a datagram that reaches ip_output_if_src, as a
function of the PCB flags, the destination, the explicit-checksum arguments
and the checksum-engine result. -/
def udp_tx_chksum_field (pcb : UdpPcb) (dst_ip : IpAddr) (have_chksum : Bool)
    (chksum pseudo : Nat) : Nat :=
  if pcb.udplite then
    let c := udp_computed_chksum have_chksum chksum pseudo
    if c = 0 then 0xffff else c
  else
    if IpIsV6 dst_ip || !pcb.nochksum then
      let c := udp_computed_chksum have_chksum chksum pseudo
      if c = 0 then 0xffff else c
    else 0

/-! ## C10: udp_netif_ip_addr_changed (udp.cpp 1252-1266) -/

/-- udp_netif_ip_addr_changed: when neither address is any, every PCB whose
local_ip equals old_addr is rebound to new_addr; nothing else changes. -/
def udp_netif_ip_addr_changed (old_addr new_addr : IpAddr)
    (pcbs : List UdpPcb) : List UdpPcb :=
  if !is_ip_addr_any old_addr && !is_ip_addr_any new_addr then
    pcbs.map fun upcb =>
      if compare_ip_addr upcb.local_ip old_addr then
        { upcb with local_ip := new_addr }
      else upcb
  else pcbs

/-! ## C6: challenge_hash (chap_ms.cpp 363-389)

The SHA1 primitive is external (mbedtls); what the source controls is the
byte sequence fed to it and the slice of the digest copied out.  Usernames
and challenges are byte lists.
-/

def SHA1_SIGNATURE_SIZE : Nat := 20

/-- The username bytes that challenge_hash feeds to SHA1: the source passes
username.c_str() unchanged (the domain-stripping code is commented out behind
a TODO). -/
def challenge_hash_user (username : List Nat) : List Nat := username

/-- The byte sequence challenge_hash hashes: 16 bytes of peer challenge, 16
bytes of server challenge, then the username bytes it selected. -/
def challenge_hash_input (peer_challenge rchallenge username : List Nat) :
    List Nat :=
  peer_challenge.take 16 ++ rchallenge.take 16 ++ challenge_hash_user username

/-- The number of digest bytes the source copies out of the SHA1 result
(std::copy over the range sha1_hash .. sha1_hash + SHA1_SIGNATURE_SIZE - 1). -/
def challenge_hash_copy_len : Nat := SHA1_SIGNATURE_SIZE - 1

/-- Modelled from the spec: the username-without-domain of RFC 2759 as the
spec states it, everything after the last backslash of a DOMAIN-backslash-user
name (the part of challenge_hash that the source left as a TODO). -/
def spec_challenge_hash_user (username : List Nat) : List Nat :=
  if username.contains 92 then
    (username.reverse.takeWhile (fun c => c ≠ 92)).reverse
  else username

/-- Modelled from the spec: the hash input RFC 2759 prescribes,
peer challenge, server challenge, then the domain-stripped username. -/
def spec_challenge_hash_input (peer_challenge rchallenge username : List Nat) :
    List Nat :=
  peer_challenge.take 16 ++ rchallenge.take 16 ++
    spec_challenge_hash_user username

/-! ## IGMP model (igmp.cpp)

Groups are per-interface list entries; the list head is the all-systems
entry created by igmp_start.  lwip_rand and pbuf allocation are external and
enter as parameters.  Transmissions and hook invocations are events.
-/

inductive IgmpState where
  | nonMember
  | delayingMember
  | idleMember
deriving DecidableEq

structure IgmpGroup where
  group_address : Nat
  group_state : IgmpState
  timer : Nat
  last_reporter_flag : Bool
  use : Nat
deriving DecidableEq

/-- Ipv4AddrFromBytes, the numeric value of dotted-quad bytes. -/
def Ipv4AddrFromBytes (a b c d : Nat) : Nat :=
  a * 0x1000000 + b * 0x10000 + c * 0x100 + d

/-- The all-systems group 224.0.0.1 (init_igmp_module). -/
def allsystems : Nat := Ipv4AddrFromBytes 224 0 0 1

/-- The all-routers group 224.0.0.2 (init_igmp_module). -/
def allrouters : Nat := Ipv4AddrFromBytes 224 0 0 2

/-- IGMP message type numbers (RFC 2236 / igmp.h, which is outside src). -/
def IGMP_MEMB_QUERY : Nat := 0x11

def IGMP_V2_MEMB_REPORT : Nat := 0x16

def IGMP_LEAVE_GROUP : Nat := 0x17

/-- Minimum IGMP packet length: the 8-byte IGMPv2 header. -/
def kIgmpMinlen : Nat := 8

/-- Modelled from the spec: the IGMPv1 fixed delay of 10 s in 100 ms ticks
(IGMP_V1_DELAYING_MEMBER_TMR; igmp.h is outside src). -/
def IGMP_V1_DELAYING_MEMBER_TMR : Nat := 100

/-- Modelled from the spec: the unsolicited report interval bound in 100 ms
ticks (IGMP_JOIN_DELAYING_MEMBER_TMR; igmp.h is outside src). -/
def IGMP_JOIN_DELAYING_MEMBER_TMR : Nat := 5

/-- Observable side effects of the IGMP functions. -/
inductive IgmpEvent where
  | sendMsg (msgtype : Nat) (dest : Nat)
  | macFilter (add : Bool) (addr : Nat)
  | pbufFree
deriving DecidableEq

/-- igmp_start_timer: the tick count installed for a delay bound max_time
given the lwip_rand() value; max_time > 2 draws rand mod max_time, smaller
bounds use 1, and a zero draw is bumped to 1. -/
def igmp_start_timer_val (max_time rand : Nat) : Nat :=
  let t := if max_time > 2 then rand % max_time else 1
  if t = 0 then 1 else t

/-- igmp_delaying_member: restart the delay timer if the group is idle, or
is delaying with a stopped timer or a new bound below the remaining ticks. -/
def igmp_delaying_member (g : IgmpGroup) (maxresp rand : Nat) : IgmpGroup :=
  if g.group_state = .idleMember ∨
      (g.group_state = .delayingMember ∧ (g.timer = 0 ∨ maxresp < g.timer)) then
    { g with timer := igmp_start_timer_val maxresp rand,
             group_state := .delayingMember }
  else g

/-- igmp_send: build and transmit a report or leave message.  alloc_ok is
the success of pbuf_alloc.  A report goes to the group address and marks the
group as last reporter; a leave goes to allrouters; any other type builds no
packet.  Returns the (possibly updated) group and the emitted events. -/
def igmp_send (group : IgmpGroup) (msgtype : Nat) (alloc_ok : Bool) :
    IgmpGroup × List IgmpEvent :=
  if alloc_ok then
    if msgtype = IGMP_V2_MEMB_REPORT then
      ({ group with last_reporter_flag := true },
       [.sendMsg msgtype group.group_address])
    else if msgtype = IGMP_LEAVE_GROUP then
      (group, [.sendMsg msgtype allrouters])
    else (group, [])
  else (group, [])

/-- igmp_lookfor_group: first list entry with the given group address. -/
def igmp_lookfor_group (groups : List IgmpGroup) (addr : Nat) :
    Option IgmpGroup :=
  groups.find? fun g => ip4_addr_cmp g.group_address addr

/-- The freshly allocated group of igmp_lookup_group. -/
def igmp_new_group (addr : Nat) : IgmpGroup :=
  { group_address := addr, group_state := .nonMember, timer := 0,
    last_reporter_flag := false, use := 0 }

/-- igmp_lookup_group: return the list with the group present, creating it
if needed; a new first entry on an empty list, otherwise appended strictly
after the first entry (allocation success assumed). -/
def igmp_lookup_group (groups : List IgmpGroup) (addr : Nat) :
    List IgmpGroup :=
  if (igmp_lookfor_group groups addr).isSome then groups
  else
    match groups with
    | [] => [igmp_new_group addr]
    | list_head :: t => list_head :: igmp_new_group addr :: t

/-- Apply f to the first list entry carrying the given address (the entry
igmp_lookfor_group finds), leaving every other entry unchanged. -/
def igmp_update_group (groups : List IgmpGroup) (addr : Nat)
    (f : IgmpGroup → IgmpGroup) : List IgmpGroup :=
  match groups with
  | [] => []
  | g :: t =>
    if ip4_addr_cmp g.group_address addr then f g :: t
    else g :: igmp_update_group t addr f

/-- The tail scan of igmp_remove_group: unlink the first entry (after the
head) that is the given group; the head itself is never unlinked. -/
def igmp_remove_from_tail (t : List IgmpGroup) (g : IgmpGroup) :
    List IgmpGroup :=
  match t with
  | [] => []
  | h :: t2 => if h = g then t2 else h :: igmp_remove_from_tail t2 g

/-- igmp_remove_group: the scan starts at the head and tests tmp->next, so
removal applies only to entries strictly after the first one; if the group is
not found after the head the list is returned unchanged (ERR_ARG ignored by
the caller). -/
def igmp_remove_group (groups : List IgmpGroup) (g : IgmpGroup) :
    List IgmpGroup :=
  match groups with
  | [] => []
  | h :: t => h :: igmp_remove_from_tail t g

/-- igmp_start: look up (creating if needed) the all-systems entry, set it
idle, increment its use count, and install the MAC filter if the hook is
present. -/
def igmp_start (has_filter : Bool) (groups : List IgmpGroup) :
    List IgmpGroup × List IgmpEvent :=
  let l := igmp_lookup_group groups allsystems
  (igmp_update_group l allsystems
      (fun g => { g with group_state := .idleMember, use := g.use + 1 }),
   if has_filter then [.macFilter true allsystems] else [])

/-- igmp_joingroup_netif: find or create the group; a first join sends the
unsolicited report, starts the delay timer from rand, installs the MAC
filter on first use, and moves to delaying; every join increments use. -/
def igmp_joingroup_netif (has_filter : Bool) (groups : List IgmpGroup)
    (addr rand : Nat) (alloc_ok : Bool) :
    List IgmpGroup × List IgmpEvent :=
  let l := igmp_lookup_group groups addr
  match igmp_lookfor_group l addr with
  | none => (l, [])
  | some g =>
    if g.group_state ≠ IgmpState.nonMember then
      (igmp_update_group l addr (fun g2 => { g2 with use := g2.use + 1 }), [])
    else
      let ev_mac : List IgmpEvent :=
        if g.use = 0 && has_filter then [.macFilter true addr] else []
      let sent := igmp_send g IGMP_V2_MEMB_REPORT alloc_ok
      let g2 := { sent.fst with
                    timer := igmp_start_timer_val IGMP_JOIN_DELAYING_MEMBER_TMR rand,
                    group_state := IgmpState.delayingMember }
      (igmp_update_group l addr (fun g3 => { g2 with use := g3.use + 1 }),
       ev_mac ++ sent.snd)

/-- Status values of the embedded lwIP functions (err.h is outside src). -/
inductive LwipStatus where
  | ok
  | mem
  | rte
  | use
  | val
  | arg
deriving DecidableEq

/-- igmp_leavegroup_netif: on the last reference, unlink the entry, send a
leave to allrouters iff the entry was last reporter, remove the MAC filter
via the hook, and delete the entry; otherwise just decrement use. -/
def igmp_leavegroup_netif (has_filter : Bool) (groups : List IgmpGroup)
    (addr : Nat) (alloc_ok : Bool) :
    LwipStatus × List IgmpGroup × List IgmpEvent :=
  match igmp_lookfor_group groups addr with
  | none => (.val, groups, [])
  | some g =>
    if g.use ≤ 1 then
      let groups2 := igmp_remove_group groups g
      let ev_leave : List IgmpEvent :=
        if g.last_reporter_flag then (igmp_send g IGMP_LEAVE_GROUP alloc_ok).snd
        else []
      let ev_mac : List IgmpEvent :=
        if has_filter then [.macFilter false addr] else []
      (.ok, groups2, ev_leave ++ ev_mac)
    else
      (.ok, igmp_update_group groups addr (fun g2 => { g2 with use := g2.use - 1 }),
       [])

/-- The per-group body of igmp_tmr: count a running timer down and fire
igmp_timeout when it reaches zero. -/
def igmp_tmr_group (alloc_ok : Bool) (g : IgmpGroup) :
    IgmpGroup × List IgmpEvent :=
  if g.timer > 0 then
    let g2 := { g with timer := g.timer - 1 }
    if g2.timer = 0 then
      -- igmp_timeout: report only when delaying and not the allsystems entry
      if g2.group_state = IgmpState.delayingMember ∧
          ¬ ip4_addr_cmp g2.group_address allsystems then
        igmp_send { g2 with group_state := IgmpState.idleMember }
          IGMP_V2_MEMB_REPORT alloc_ok
      else (g2, [])
    else (g2, [])
  else (g, [])

/-- igmp_tmr over one interface group list. -/
def igmp_tmr (alloc_ok : Bool) (groups : List IgmpGroup) :
    List IgmpGroup × List IgmpEvent :=
  match groups with
  | [] => ([], [])
  | g :: t =>
    let r := igmp_tmr_group alloc_ok g
    let rest := igmp_tmr alloc_ok t
    (r.fst :: rest.fst, r.snd ++ rest.snd)

/-- Apply igmp_delaying_member to each group of a list, drawing one
lwip_rand value per group from the stream rands. -/
def igmp_delay_list (t : List IgmpGroup) (mr : Nat) (rands : Nat → Nat) :
    List IgmpGroup :=
  match t with
  | [] => []
  | g :: t2 =>
    igmp_delaying_member g mr (rands 0) ::
      igmp_delay_list t2 mr (fun i => rands (i + 1))

/-- igmp_input: called with the received packet (length plen, checksum
validity chksum_ok, message fields msgtype / maxresp / gaddr) and the
destination address dest.  Returns the updated group list and the events;
each early exit and the fall-through end free the packet buffer. -/
def igmp_input (groups : List IgmpGroup) (plen : Nat) (chksum_ok : Bool)
    (msgtype maxresp gaddr dest : Nat) (rands : Nat → Nat) :
    List IgmpGroup × List IgmpEvent :=
  if plen < kIgmpMinlen then (groups, [.pbufFree])
  else if ¬ chksum_ok then (groups, [.pbufFree])
  else
    match igmp_lookfor_group groups dest with
    | none => (groups, [.pbufFree])
    | some _ =>
      if msgtype = IGMP_MEMB_QUERY then
        if ip4_addr_cmp dest allsystems ∧ ip4_addr_isany gaddr then
          -- general query: V1 compatibility, then delay every non-head group
          let mr := if maxresp = 0 then IGMP_V1_DELAYING_MEMBER_TMR else maxresp
          match groups with
          | [] => ([], [.pbufFree])
          | h :: t => (h :: igmp_delay_list t mr rands, [.pbufFree])
        else if ¬ ip4_addr_isany gaddr then
          -- group-specific query: re-look up when sent to allsystems
          let target := if ip4_addr_cmp dest allsystems then gaddr else dest
          match igmp_lookfor_group groups target with
          | some _ =>
            (igmp_update_group groups target
                (fun g => igmp_delaying_member g maxresp (rands 0)),
             [.pbufFree])
          | none => (groups, [.pbufFree])
        else (groups, [.pbufFree])
      else if msgtype = IGMP_V2_MEMB_REPORT then
        (igmp_update_group groups dest
            (fun g =>
              if g.group_state = IgmpState.delayingMember then
                { g with timer := 0, group_state := IgmpState.idleMember,
                         last_reporter_flag := false }
              else g),
         [.pbufFree])
      else (groups, [.pbufFree])

/-- The operations of C7 that touch an interface group list while IGMP is
running, with their external inputs. -/
inductive IgmpOp where
  | start (has_filter : Bool)
  | join (addr rand : Nat) (has_filter alloc_ok : Bool)
  | leave (addr : Nat) (has_filter alloc_ok : Bool)
  | input (plen : Nat) (chksum_ok : Bool) (msgtype maxresp gaddr dest : Nat)
      (rands : Nat → Nat)
  | tmr (alloc_ok : Bool)

/-- The group-list effect of one IGMP operation. -/
def igmp_apply (op : IgmpOp) (groups : List IgmpGroup) : List IgmpGroup :=
  match op with
  | .start has_filter => (igmp_start has_filter groups).fst
  | .join addr rand has_filter alloc_ok =>
    (igmp_joingroup_netif has_filter groups addr rand alloc_ok).fst
  | .leave addr has_filter alloc_ok =>
    (igmp_leavegroup_netif has_filter groups addr alloc_ok).snd.fst
  | .input plen chk msgtype maxresp gaddr dest rands =>
    (igmp_input groups plen chk msgtype maxresp gaddr dest rands).fst
  | .tmr alloc_ok => (igmp_tmr alloc_ok groups).fst

/-- The C7 invariant: the list is nonempty, its first entry is the
all-systems group, and that entry's use count is at least 1. -/
def IgmpHeadInvariant (groups : List IgmpGroup) : Prop :=
  ∃ h t, groups = h :: t ∧ h.group_address = allsystems ∧ 1 ≤ h.use

/-! ## C3/C8: udp_new_port and udp_bind (udp.cpp 89-110, 913-1006) -/

/-- IANA dynamic/private port range start, 0xc000. -/
def UDP_LOCAL_PORT_RANGE_START : Nat := 0xc000

/-- IANA dynamic/private port range end, 0xffff. -/
def UDP_LOCAL_PORT_RANGE_END : Nat := 0xffff

/-- The candidate step of udp_new_port: the post-increment of the uint16_t
udp_port together with the wrap back to the range start after the range
end. -/
def udp_port_next (p : Nat) : Nat :=
  if p = UDP_LOCAL_PORT_RANGE_END then UDP_LOCAL_PORT_RANGE_START else p + 1

/-- The goto-again loop of udp_new_port.  ports are the local ports of the
PCB list, p the stored udp_port, n the conflict counter.  Returns (result,
final udp_port value, final conflict count); result 0 means the range is
exhausted.  The loop re-runs only while the counter stays at most
UDP_LOCAL_PORT_RANGE_END - UDP_LOCAL_PORT_RANGE_START, which bounds the
failed candidates and makes the recursion well-founded. -/
def udp_new_port_aux (ports : List Nat) (p n : Nat) : Nat × Nat × Nat :=
  let p2 := udp_port_next p
  if ports.contains p2 then
    if n + 1 > UDP_LOCAL_PORT_RANGE_END - UDP_LOCAL_PORT_RANGE_START then
      (0, p2, n + 1)
    else udp_new_port_aux ports p2 (n + 1)
  else (p2, p2, n)
termination_by UDP_LOCAL_PORT_RANGE_END - UDP_LOCAL_PORT_RANGE_START + 1 - n
decreasing_by
  simp only [UDP_LOCAL_PORT_RANGE_END, UDP_LOCAL_PORT_RANGE_START] at *
  omega

/-- udp_new_port: run the candidate loop from the stored udp_port with the
conflict counter at zero. -/
def udp_new_port (ports : List Nat) (p : Nat) : Nat × Nat × Nat :=
  udp_new_port_aux ports p 0

/-- The global state udp.cpp keeps: the last local port and the udp_pcbs
list. -/
structure UdpState where
  udp_port : Nat
  pcbs : List UdpPcb
deriving DecidableEq

/-- The reject test of the udp_bind conflict scan: another PCB (ipcb) bound
to the same port with an overlapping address, unless both PCBs carry
SOF_REUSEADDR. -/
def udp_bind_conflict (pcb ipcb : UdpPcb) (ipaddr : IpAddr) (port : Nat) :
    Bool :=
  ipcb.id ≠ pcb.id &&
  !(pcb.so_reuseaddr && ipcb.so_reuseaddr) &&
  ipcb.local_port = port &&
  (compare_ip_addr ipcb.local_ip ipaddr || is_ip_addr_any ipaddr ||
    is_ip_addr_any ipcb.local_ip)

/-- The tail of udp_bind: store the local identity into the PCB and insert
it at the head of the list unless it was already on it (rebind). -/
def udp_bind_finish (st : UdpState) (pcb : UdpPcb) (ipaddr : IpAddr)
    (port : Nat) (rebind : Bool) : LwipStatus × UdpState × UdpPcb :=
  let pcb2 := { pcb with local_ip := ipaddr, local_port := port }
  let pcbs2 :=
    if rebind then st.pcbs.map fun q => if q.id = pcb.id then pcb2 else q
    else pcb2 :: st.pcbs
  (.ok, { st with pcbs := pcbs2 }, pcb2)

/-- udp_bind.  select_zone stands for ip6_addr_select_zone, which is outside
the given sources; it is consulted exactly when the address is scoped but
unzoned.  Port 0 requests an ephemeral port from udp_new_port; a nonzero
port runs the conflict scan.  Returns the status, the new global state and
the PCB as left by the call. -/
def udp_bind (select_zone : IpAddr → IpAddr) (st : UdpState) (pcb : UdpPcb)
    (ipaddr : IpAddr) (port : Nat) : LwipStatus × UdpState × UdpPcb :=
  let rebind := st.pcbs.any fun q => q.id = pcb.id
  let ipaddr2 :=
    if ip_addr_lacks_zone ipaddr then select_zone ipaddr else ipaddr
  if port = 0 then
    let r := udp_new_port (st.pcbs.map fun q => q.local_port) st.udp_port
    if r.fst = 0 then (.use, { st with udp_port := r.snd.fst }, pcb)
    else udp_bind_finish { st with udp_port := r.snd.fst } pcb ipaddr2 r.fst
        rebind
  else
    if st.pcbs.any fun q => udp_bind_conflict pcb q ipaddr2 port then
      (.use, st, pcb)
    else udp_bind_finish st pcb ipaddr2 port rebind

/-! ## C2: udp_input (udp.cpp 186-434)

The demultiplexing loop, the MRU move-to-front of a fully matched PCB, the
SOF_REUSEADDR broadcast/multicast fan-out, and the delivery/free events.
The checksum engine result and the broadcast classification of the
destination (ip_addr_isbroadcast reads the interface) enter as parameters;
pbuf_clone allocation is assumed to succeed.
-/

structure UdpPkt where
  src_ip : IpAddr
  dst_ip : IpAddr
  src_port : Nat
  dst_port : Nat
deriving DecidableEq

/-- udp_input_local_match (udp.cpp 120-172): the bound-interface check, the
dual-stack/any test, the version match, and the IPv4 broadcast subnet
rules. -/
def udp_input_local_match (pcb : UdpPcb) (inp : NetIfc) (dst : IpAddr)
    (broadcast : Bool) : Bool :=
  if pcb.netif_idx ≠ 0 && pcb.netif_idx ≠ inp.idx then false
  else if is_ip_addr_any pcb.local_ip then !broadcast || pcb.so_broadcast
  else if match_exact_ip_addr_pcb_vers pcb.local_ip dst then
    if broadcast then
      pcb.so_broadcast &&
        (ip4_addr_isany (ip4_part pcb.local_ip) ||
          ip4_part dst = IP4_ADDR_BCAST ||
          ip4_addr_netcmp (ip4_part pcb.local_ip) (ip4_part dst) inp.netmask4)
    else is_ip_addr_any pcb.local_ip || compare_ip_addr pcb.local_ip dst
  else false

/-- The full-match test of the demux loop: local port and local match, plus
remote port and remote address agreeing with the packet source. -/
def udp_perfect_match (pcb : UdpPcb) (pkt : UdpPkt) (inp : NetIfc)
    (broadcast : Bool) : Bool :=
  pcb.local_port = pkt.dst_port &&
  udp_input_local_match pcb inp pkt.dst_ip broadcast &&
  pcb.remote_port = pkt.src_port &&
  (ip_addr_isany_val pcb.remote_ip || compare_ip_addr pcb.remote_ip pkt.src_ip)

/-- One step of the unconnected-candidate selection of the demux loop: keep
the first unconnected local match, upgrading it for a global-broadcast
packet to a PCB bound to the input interface address, and otherwise to a
specific (non-any) local address. -/
def udp_uncon_step (pkt : UdpPkt) (inp : NetIfc) (broadcast : Bool)
    (uncon : Option UdpPcb) (pcb : UdpPcb) : Option UdpPcb :=
  if pcb.local_port = pkt.dst_port &&
      udp_input_local_match pcb inp pkt.dst_ip broadcast then
    if !pcb.connected then
      match uncon with
      | none => some pcb
      | some u =>
        if broadcast && ip4_part pkt.dst_ip = IP4_ADDR_BCAST then
          if (!(IpIsV4 u.local_ip) || !ip4_addr_cmp (ip4_part u.local_ip) inp.ip4)
              && (IpIsV4 pcb.local_ip &&
                  ip4_addr_cmp (ip4_part pcb.local_ip) inp.ip4) then
            some pcb
          else some u
        else if !(is_ip_addr_any pcb.local_ip) then some pcb
        else some u
    else uncon
  else uncon

/-- The unconnected candidate left by the loop when no full match exists. -/
def udp_find_uncon (pkt : UdpPkt) (inp : NetIfc) (broadcast : Bool)
    (pcbs : List UdpPcb) : Option UdpPcb :=
  pcbs.foldl (udp_uncon_step pkt inp broadcast) none

/-- Split the list at the first fully matching PCB: the entries before it,
the match, and the entries after it. -/
def udp_find_perfect (pkt : UdpPkt) (inp : NetIfc) (broadcast : Bool) :
    List UdpPcb → Option (List UdpPcb × UdpPcb × List UdpPcb)
  | [] => none
  | p :: rest =>
    if udp_perfect_match p pkt inp broadcast then some ([], p, rest)
    else
      match udp_find_perfect pkt inp broadcast rest with
      | some (pre, q, post) => some (p :: pre, q, post)
      | none => none

/-- The udp_pcbs list after the loop: a fully matched PCB found behind a
predecessor is moved to the front (the MRU cache step). -/
def udp_input_reorder (pkt : UdpPkt) (inp : NetIfc) (broadcast : Bool)
    (pcbs : List UdpPcb) : List UdpPcb :=
  match udp_find_perfect pkt inp broadcast pcbs with
  | some ([], _, _) => pcbs
  | some (pre, q, post) => q :: (pre ++ post)
  | none => pcbs

/-- The PCB the datagram is delivered to: the first full match, else the
unconnected candidate. -/
def udp_input_primary (pkt : UdpPkt) (inp : NetIfc) (broadcast : Bool)
    (pcbs : List UdpPcb) : Option UdpPcb :=
  match udp_find_perfect pkt inp broadcast pcbs with
  | some (_, q, _) => some q
  | none => udp_find_uncon pkt inp broadcast pcbs

/-- Observable effects of udp_input on the packet buffer. -/
inductive UdpEvent where
  | cloneTo (id : Nat)
  | origTo (id : Nat)
  | icmpPortUnreach
  | freed
deriving DecidableEq

/-- udp_input: returns the udp_pcbs list after the call and the event
trace.  plen is p->len, chksum_ok the outcome of the checksum verification
block, broadcast the ip_addr_isbroadcast classification of the
destination. -/
def udp_input (pcbs : List UdpPcb) (pkt : UdpPkt) (inp : NetIfc)
    (broadcast chksum_ok : Bool) (plen : Nat) :
    List UdpPcb × List UdpEvent :=
  if plen < 8 then (pcbs, [.freed])
  else
    let pcbs2 := udp_input_reorder pkt inp broadcast pcbs
    let primary := udp_input_primary pkt inp broadcast pcbs
    let for_us := primary.isSome ||
      (match pkt.dst_ip with
       | .v6 a _ => inp.ip6_addrs.contains a
       | _ => ip4_addr_cmp inp.ip4 (ip4_part pkt.dst_ip))
    if for_us then
      if ¬ chksum_ok then (pcbs2, [.freed])
      else
        match primary with
        | some pcb =>
          let fanout : List UdpEvent :=
            if pcb.so_reuseaddr && (broadcast || ip_addr_ismulticast pkt.dst_ip)
            then
              pcbs2.filterMap fun m =>
                if m.id ≠ pcb.id ∧ m.local_port = pkt.dst_port ∧
                    udp_input_local_match m inp pkt.dst_ip broadcast = true ∧
                    m.has_recv = true then
                  some (.cloneTo m.id)
                else none
            else []
          if pcb.has_recv then (pcbs2, fanout ++ [.origTo pcb.id])
          else (pcbs2, fanout ++ [.freed])
        | none =>
          (pcbs2,
           (if !broadcast && !ip_addr_ismulticast pkt.dst_ip then
              [UdpEvent.icmpPortUnreach]
            else []) ++ [.freed])
    else (pcbs2, [.freed])

/-! ## Concrete values used by the witness theorems -/

/-- A sample PCB for witnesses: plain UDP, checksums enabled. -/
def wPcbPlain : UdpPcb :=
  { id := 1, local_ip := .v4 0xc0000203, local_port := 5000,
    remote_ip := .anyType, remote_port := 0, netif_idx := 0,
    so_broadcast := true, so_reuseaddr := true, connected := false,
    nochksum := false, udplite := false, has_recv := true }

/-- A sample group list: the allsystems head and one joined group. -/
def wGroups : List IgmpGroup :=
  [{ group_address := allsystems, group_state := .idleMember, timer := 0,
     last_reporter_flag := false, use := 1 },
   { group_address := Ipv4AddrFromBytes 239 1 2 3, group_state := .idleMember,
     timer := 0, last_reporter_flag := true, use := 1 }]

/-- The byte string DOMAIN backslash user, the C6 failing input. -/
def wUserDomain : List Nat := [68, 79, 77, 65, 73, 78, 92, 117, 115, 101, 114]

/-- A second sample PCB, distinct only in identity, for the fan-out
witness. -/
def wPcbPlain2 : UdpPcb := { wPcbPlain with id := 2 }

/-- The input interface of the fan-out witness: 192.0.2.3/24. -/
def wNetIfc : NetIfc :=
  { idx := 1, ip4 := 0xc0000203, netmask4 := 0xffffff00, ip6_addrs := [] }

/-- A global-broadcast datagram to port 5000 for the fan-out witness. -/
def wPkt : UdpPkt :=
  { src_ip := .v4 0x0a000001, dst_ip := .v4 0xffffffff, src_port := 7,
    dst_port := 5000 }

/-! ## Claim theorems -/

/-- C1: in udp_sendto_if_src_chksum, for a (non-UDP-Lite) UDP datagram whose
destination is IPv6 or whose PCB has NOCHKSUM clear, the computed
pseudo-header checksum is placed in the header with 0x0000 replaced by
0xFFFF, so the field is never 0 there; and across all flag combinations the
transmitted field is 0 exactly for IPv4 with NOCHKSUM set. -/
theorem udp_tx_chksum_zero_only_nochksum (pcb : UdpPcb) (dst_ip : IpAddr)
    (have_chksum : Bool) (chksum pseudo : Nat)
    (hudp : pcb.udplite = false) :
    ((IpIsV6 dst_ip = true ∨ pcb.nochksum = false) →
      udp_tx_chksum_field pcb dst_ip have_chksum chksum pseudo =
        (if udp_computed_chksum have_chksum chksum pseudo = 0 then 0xffff
         else udp_computed_chksum have_chksum chksum pseudo) ∧
      udp_tx_chksum_field pcb dst_ip have_chksum chksum pseudo ≠ 0) ∧
    (udp_tx_chksum_field pcb dst_ip have_chksum chksum pseudo = 0 ↔
      IpIsV6 dst_ip = false ∧ pcb.nochksum = true) := by
  unfold udp_tx_chksum_field
  constructor
  · intro hcase
    have hb : (IpIsV6 dst_ip || !pcb.nochksum) = true := by
      rcases hcase with h | h <;> simp [h]
    refine ⟨by simp [hudp, hb], ?_⟩
    simp only [hudp, Bool.false_eq_true, if_false, hb, if_true]
    split
    · simp
    · assumption
  · simp only [hudp, Bool.false_eq_true, if_false]
    by_cases h6 : IpIsV6 dst_ip <;> by_cases hn : pcb.nochksum <;>
      simp [h6, hn] <;> split <;> simp_all

/-- C1 witness: concrete evaluation, IPv4 destination with NOCHKSUM clear
and checksum engine result 0 transmits 0xFFFF. -/
theorem udp_tx_chksum_zero_only_nochksum_witness :
    ((IpIsV6 (IpAddr.v4 7) = true ∨ wPcbPlain.nochksum = false) →
      udp_tx_chksum_field wPcbPlain (IpAddr.v4 7) false 3 0 =
        (if udp_computed_chksum false 3 0 = 0 then 0xffff
         else udp_computed_chksum false 3 0) ∧
      udp_tx_chksum_field wPcbPlain (IpAddr.v4 7) false 3 0 ≠ 0) ∧
    (udp_tx_chksum_field wPcbPlain (IpAddr.v4 7) false 3 0 = 0 ↔
      IpIsV6 (IpAddr.v4 7) = false ∧ wPcbPlain.nochksum = true) :=
  udp_tx_chksum_zero_only_nochksum wPcbPlain (IpAddr.v4 7) false 3 0 (by decide)

/-- C10: when both the old and the new interface address are non-any,
udp_netif_ip_addr_changed rewrites exactly the local IP of the PCBs bound to
the old address, leaving every other field and every other PCB unchanged;
when either address is any, the list is untouched. -/
theorem udp_netif_ip_addr_changed_spec (old_addr new_addr : IpAddr)
    (pcbs : List UdpPcb) :
    (¬ (is_ip_addr_any old_addr = false ∧ is_ip_addr_any new_addr = false) →
      udp_netif_ip_addr_changed old_addr new_addr pcbs = pcbs) ∧
    (is_ip_addr_any old_addr = false → is_ip_addr_any new_addr = false →
      ∀ (i : Nat) (p : UdpPcb), pcbs[i]? = some p →
        (udp_netif_ip_addr_changed old_addr new_addr pcbs)[i]? =
          some (if compare_ip_addr p.local_ip old_addr then
                  { p with local_ip := new_addr }
                else p)) := by
  constructor
  · intro h
    unfold udp_netif_ip_addr_changed
    have : (!is_ip_addr_any old_addr && !is_ip_addr_any new_addr) = false := by
      by_cases h1 : is_ip_addr_any old_addr <;>
        by_cases h2 : is_ip_addr_any new_addr <;> simp_all
    simp [this]
  · intro h1 h2 i p hp
    unfold udp_netif_ip_addr_changed
    simp [h1, h2, List.getElem?_map, hp]

/-- C10 witness: a PCB bound to the old address is moved to the new one. -/
theorem udp_netif_ip_addr_changed_spec_witness :
    (udp_netif_ip_addr_changed (IpAddr.v4 0xc0000203) (IpAddr.v4 9)
        [wPcbPlain])[0]? =
      some (if compare_ip_addr wPcbPlain.local_ip (IpAddr.v4 0xc0000203) then
              { wPcbPlain with local_ip := IpAddr.v4 9 }
            else wPcbPlain) :=
  (udp_netif_ip_addr_changed_spec (IpAddr.v4 0xc0000203) (IpAddr.v4 9)
      [wPcbPlain]).2 (by decide) (by decide) 0 wPcbPlain (by decide)

/-- C5 counterexample: the claim says the installed tick count is uniformly
distributed over the closed range [1, bound].  For bound 3 the draws
lwip_rand mod 3 = 0,1,2 are equally likely, yet value 1 is produced by two
of the three residues and value 3 by none, so the distribution is not
uniform on [1,3] (the upper bound is never attained). -/
theorem igmp_start_timer_not_uniform :
    ¬ ((List.range 3).countP (fun r => igmp_start_timer_val 3 r = 1) =
        (List.range 3).countP (fun r => igmp_start_timer_val 3 r = 3)) := by
  decide

/-- C5 amended: the installed tick count always lies in [1, bound-1] when
bound > 2 (the draw 0 is bumped to 1, so 1 is twice as likely and bound
itself is never produced) and equals 1 when bound is at most 2; and a Query
arriving while the group is delaying restarts the timer exactly when it is
stopped or the new bound is below the remaining ticks. -/
theorem igmp_start_timer_range_and_restart (max_time rand : Nat)
    (g : IgmpGroup) (maxresp rand2 : Nat) :
    (1 ≤ igmp_start_timer_val max_time rand) ∧
    (2 < max_time → igmp_start_timer_val max_time rand ≤ max_time - 1) ∧
    (max_time ≤ 2 → igmp_start_timer_val max_time rand = 1) ∧
    (g.group_state = .delayingMember →
      ¬ (g.timer = 0 ∨ maxresp < g.timer) →
      igmp_delaying_member g maxresp rand2 = g) ∧
    (g.group_state = .delayingMember →
      (g.timer = 0 ∨ maxresp < g.timer) →
      igmp_delaying_member g maxresp rand2 =
        { g with timer := igmp_start_timer_val maxresp rand2,
                 group_state := .delayingMember }) := by
  refine ⟨?_, ?_, ?_, ?_, ?_⟩
  · unfold igmp_start_timer_val
    by_cases h : max_time > 2
    · simp only [h, if_true]
      split <;> omega
    · simp only [h, if_false]
      split <;> omega
  · intro h
    unfold igmp_start_timer_val
    have hmod : rand % max_time < max_time := Nat.mod_lt _ (by omega)
    simp only [h, if_true]
    split <;> omega
  · intro h
    unfold igmp_start_timer_val
    have hh : ¬ (max_time > 2) := by omega
    simp [hh]
  · intro hs ht
    unfold igmp_delaying_member
    have hns : g.group_state ≠ IgmpState.idleMember := by
      rw [hs]; intro hh; cases hh
    simp [hs, ht, hns]
  · intro hs ht
    unfold igmp_delaying_member
    simp [hs, ht]

/-- C5 amended witness: bound 3, draw 5 gives 5 mod 3 = 2 ticks; an idle
group is (vacuously for the delaying clauses) covered. -/
theorem igmp_start_timer_range_and_restart_witness :
    (1 ≤ igmp_start_timer_val 3 5) ∧
    (2 < 3 → igmp_start_timer_val 3 5 ≤ 3 - 1) ∧
    ((3 : Nat) ≤ 2 → igmp_start_timer_val 3 5 = 1) ∧
    ((wGroups.get ⟨1, by decide⟩).group_state = .delayingMember →
      ¬ ((wGroups.get ⟨1, by decide⟩).timer = 0 ∨
          2 < (wGroups.get ⟨1, by decide⟩).timer) →
      igmp_delaying_member (wGroups.get ⟨1, by decide⟩) 2 7 =
        wGroups.get ⟨1, by decide⟩) ∧
    ((wGroups.get ⟨1, by decide⟩).group_state = .delayingMember →
      ((wGroups.get ⟨1, by decide⟩).timer = 0 ∨
          2 < (wGroups.get ⟨1, by decide⟩).timer) →
      igmp_delaying_member (wGroups.get ⟨1, by decide⟩) 2 7 =
        { wGroups.get ⟨1, by decide⟩ with
            timer := igmp_start_timer_val 2 7,
            group_state := .delayingMember }) :=
  igmp_start_timer_range_and_restart 3 5 (wGroups.get ⟨1, by decide⟩) 2 7

/-- C6: the claim asks for the first 8 bytes of SHA1 over the
domain-stripped username; challenge_hash in the source hashes the username
unchanged (the strrchr domain split is commented out behind a TODO) and
copies SHA1_SIGNATURE_SIZE - 1 = 19 digest bytes instead of 8.  At the
failing input DOMAIN backslash user the hashed byte sequences differ. -/
theorem challenge_hash_domain_bug :
    challenge_hash_user wUserDomain ≠ spec_challenge_hash_user wUserDomain ∧
    spec_challenge_hash_user wUserDomain = [117, 115, 101, 114] ∧
    challenge_hash_input (List.replicate 16 0) (List.replicate 16 1)
        wUserDomain ≠
      spec_challenge_hash_input (List.replicate 16 0) (List.replicate 16 1)
        wUserDomain ∧
    challenge_hash_copy_len = 19 ∧ challenge_hash_copy_len ≠ 8 := by
  decide

/-- C9: igmp_input frees its packet buffer exactly once on every execution
path: short packet, checksum failure, unknown group, general query,
group-specific query (found or not), V2 report, and unrecognized type all
produce exactly one pbufFree event and no other buffer event. -/
theorem igmp_input_frees_once (groups : List IgmpGroup) (plen : Nat)
    (chksum_ok : Bool) (msgtype maxresp gaddr dest : Nat)
    (rands : Nat → Nat) :
    (igmp_input groups plen chksum_ok msgtype maxresp gaddr dest rands).snd =
      [.pbufFree] := by
  unfold igmp_input
  repeat' split <;> try rfl
  all_goals (dsimp only; split <;> rfl)

/-! ## Helper lemmas for the IGMP list claims -/

/-- Unfolding lemma for igmp_update_group on a cons cell. -/
theorem igmp_update_group_cons (g : IgmpGroup) (t : List IgmpGroup)
    (addr : Nat) (f : IgmpGroup → IgmpGroup) :
    igmp_update_group (g :: t) addr f =
      if ip4_addr_cmp g.group_address addr then f g :: t
      else g :: igmp_update_group t addr f := rfl

/-- igmp_send never changes the group address or the use count. -/
theorem igmp_send_fields (g : IgmpGroup) (ty : Nat) (ok : Bool) :
    (igmp_send g ty ok).fst.group_address = g.group_address ∧
    (igmp_send g ty ok).fst.use = g.use := by
  unfold igmp_send
  split
  · split
    · exact ⟨rfl, rfl⟩
    · split
      · exact ⟨rfl, rfl⟩
      · exact ⟨rfl, rfl⟩
  · exact ⟨rfl, rfl⟩

/-- igmp_delaying_member never changes the group address or use count. -/
theorem igmp_delaying_member_fields (g : IgmpGroup) (mr r : Nat) :
    (igmp_delaying_member g mr r).group_address = g.group_address ∧
    (igmp_delaying_member g mr r).use = g.use := by
  unfold igmp_delaying_member
  split <;> simp

/-- The per-group timer step never changes the group address or use count. -/
theorem igmp_tmr_group_fields (ok : Bool) (g : IgmpGroup) :
    (igmp_tmr_group ok g).fst.group_address = g.group_address ∧
    (igmp_tmr_group ok g).fst.use = g.use := by
  unfold igmp_tmr_group
  split
  · dsimp only
    split
    · split
      · constructor
        · rw [(igmp_send_fields _ _ _).1]
        · rw [(igmp_send_fields _ _ _).2]
      · exact ⟨rfl, rfl⟩
    · exact ⟨rfl, rfl⟩
  · exact ⟨rfl, rfl⟩

/-- Splitting lemma for List.find?: the list decomposes at the found
element, with every earlier element failing the predicate. -/
theorem find_eq_some_split {α : Type} (p : α → Bool) (x : α) :
    ∀ l : List α, l.find? p = some x →
      ∃ pre post, l = pre ++ x :: post ∧ (∀ y ∈ pre, p y = false) ∧
        p x = true := by
  intro l
  induction l with
  | nil => intro h; cases h
  | cons a t ih =>
    intro h
    by_cases ha : p a
    · rw [List.find?_cons_of_pos _ ha] at h
      cases h
      refine ⟨[], t, rfl, ?_, ha⟩
      intro y hy
      cases hy
    · rw [List.find?_cons_of_neg _ ha] at h
      obtain ⟨pre, post, rfl, hpre, hx⟩ := ih h
      refine ⟨a :: pre, post, rfl, ?_, hx⟩
      intro y hy
      rcases List.mem_cons.mp hy with rfl | hy2
      · simpa using ha
      · exact hpre y hy2

/-- igmp_remove_from_tail removes exactly the first occurrence of the
group when everything before it differs from it. -/
theorem igmp_remove_from_tail_append (g : IgmpGroup) :
    ∀ (pre post : List IgmpGroup), (∀ x ∈ pre, x ≠ g) →
      igmp_remove_from_tail (pre ++ g :: post) g = pre ++ post := by
  intro pre
  induction pre with
  | nil => intro post _; unfold igmp_remove_from_tail; simp
  | cons a t ih =>
    intro post hne
    have ha : a ≠ g := hne a (List.mem_cons_self a t)
    unfold igmp_remove_from_tail
    simp only [List.cons_append, if_neg ha]
    rw [ih post fun x hx => hne x (List.mem_cons_of_mem a hx)]

/-- igmp_update_group rewrites exactly the first entry with the target
address when everything before it has a different address. -/
theorem igmp_update_group_append (addr : Nat) (f : IgmpGroup → IgmpGroup)
    (g : IgmpGroup) (hg : ip4_addr_cmp g.group_address addr = true) :
    ∀ (pre post : List IgmpGroup),
      (∀ x ∈ pre, ip4_addr_cmp x.group_address addr = false) →
      igmp_update_group (pre ++ g :: post) addr f = pre ++ f g :: post := by
  intro pre
  induction pre with
  | nil => intro post _; simp [igmp_update_group_cons, hg]
  | cons a t ih =>
    intro post hpre
    have ha := hpre a (List.mem_cons_self a t)
    simp only [List.cons_append, igmp_update_group_cons, ha,
      Bool.false_eq_true, if_false, List.cons.injEq, true_and]
    exact ih post fun x hx => hpre x (List.mem_cons_of_mem a hx)

/-- Head-preservation of igmp_update_group: if the transform keeps a
matching head an allsystems entry with positive use, the invariant
survives. -/
theorem igmp_update_inv (hd : IgmpGroup) (t : List IgmpGroup) (addr : Nat)
    (f : IgmpGroup → IgmpGroup)
    (haddr : hd.group_address = allsystems) (huse : 1 ≤ hd.use)
    (hf : ip4_addr_cmp hd.group_address addr = true →
      (f hd).group_address = allsystems ∧ 1 ≤ (f hd).use) :
    IgmpHeadInvariant (igmp_update_group (hd :: t) addr f) := by
  rw [igmp_update_group_cons]
  by_cases hc : ip4_addr_cmp hd.group_address addr
  · obtain ⟨h1, h2⟩ := hf hc
    rw [if_pos hc]
    exact ⟨f hd, t, rfl, h1, h2⟩
  · rw [if_neg hc]
    exact ⟨hd, _, rfl, haddr, huse⟩

/-- C7: while IGMP is running on an interface, every group-list operation
(start, join, leave, input, timer) preserves the invariant that the first
list entry is the all-systems group 224.0.0.1 with use count at least 1:
igmp_lookup_group appends new groups strictly after the first entry, and the
igmp_remove_group scan never unlinks the first entry. -/
theorem igmp_ops_preserve_head_invariant (op : IgmpOp)
    (groups : List IgmpGroup) (h : IgmpHeadInvariant groups) :
    IgmpHeadInvariant (igmp_apply op groups) := by
  obtain ⟨hd, t, rfl, haddr, huse⟩ := h
  have hcmp_all : ip4_addr_cmp hd.group_address allsystems = true := by
    simp [ip4_addr_cmp, haddr]
  cases op with
  | start has_filter =>
    have hfind : igmp_lookfor_group (hd :: t) allsystems = some hd := by
      unfold igmp_lookfor_group
      exact List.find?_cons_of_pos _ hcmp_all
    unfold igmp_apply igmp_start
    have hlk : igmp_lookup_group (hd :: t) allsystems = hd :: t := by
      unfold igmp_lookup_group
      rw [hfind]
      rfl
    rw [hlk]
    exact igmp_update_inv hd t allsystems _ haddr huse
      (fun _ => ⟨haddr, Nat.succ_le_succ (Nat.zero_le _)⟩)
  | join addr rand has_filter alloc_ok =>
    unfold igmp_apply igmp_joingroup_netif
    dsimp only
    cases hfound : igmp_lookfor_group (hd :: t) addr with
    | some g =>
      have hlk : igmp_lookup_group (hd :: t) addr = hd :: t := by
        unfold igmp_lookup_group
        rw [hfound]
        rfl
      rw [hlk, hfound]
      dsimp only
      split
      · exact igmp_update_inv hd t addr _ haddr huse
          (fun _ => ⟨haddr, Nat.succ_le_succ (Nat.zero_le _)⟩)
      · apply igmp_update_inv hd t addr _ haddr huse
        intro hc
        have hg : g = hd := by
          have heq : igmp_lookfor_group (hd :: t) addr = some hd := by
            unfold igmp_lookfor_group
            exact List.find?_cons_of_pos _ hc
          rw [heq] at hfound
          exact (Option.some.inj hfound).symm
        refine ⟨?_, Nat.succ_le_succ (Nat.zero_le _)⟩
        show ((igmp_send g IGMP_V2_MEMB_REPORT alloc_ok).fst).group_address =
          allsystems
        rw [(igmp_send_fields g IGMP_V2_MEMB_REPORT alloc_ok).1, hg, haddr]
    | none =>
      have hhd_ne : ip4_addr_cmp hd.group_address addr = false := by
        cases hc : ip4_addr_cmp hd.group_address addr
        · rfl
        · have heq : igmp_lookfor_group (hd :: t) addr = some hd := by
            unfold igmp_lookfor_group
            exact List.find?_cons_of_pos _ hc
          rw [heq] at hfound
          cases hfound
      have hlk : igmp_lookup_group (hd :: t) addr =
          hd :: igmp_new_group addr :: t := by
        unfold igmp_lookup_group
        rw [hfound]
        rfl
      rw [hlk]
      have hnew : igmp_lookfor_group (hd :: igmp_new_group addr :: t) addr =
          some (igmp_new_group addr) := by
        unfold igmp_lookfor_group
        rw [List.find?_cons_of_neg _ (by simp [hhd_ne])]
        exact List.find?_cons_of_pos _ (by simp [ip4_addr_cmp, igmp_new_group])
      rw [hnew]
      dsimp only
      split
      · exact igmp_update_inv hd _ addr _ haddr huse
          (fun hc => by simp [hhd_ne] at hc)
      · exact igmp_update_inv hd _ addr _ haddr huse
          (fun hc => by simp [hhd_ne] at hc)
  | leave addr has_filter alloc_ok =>
    unfold igmp_apply igmp_leavegroup_netif
    dsimp only
    cases hfound : igmp_lookfor_group (hd :: t) addr with
    | none =>
      exact ⟨hd, t, rfl, haddr, huse⟩
    | some g =>
      dsimp only
      split
      · exact ⟨hd, igmp_remove_from_tail t g, rfl, haddr, huse⟩
      · rename_i huseg
        apply igmp_update_inv hd t addr _ haddr huse
        intro hc
        have hg : g = hd := by
          have heq : igmp_lookfor_group (hd :: t) addr = some hd := by
            unfold igmp_lookfor_group
            exact List.find?_cons_of_pos _ hc
          rw [heq] at hfound
          exact (Option.some.inj hfound).symm
        refine ⟨haddr, ?_⟩
        show 1 ≤ hd.use - 1
        rw [hg] at huseg
        omega
  | input plen chk msgtype maxresp gaddr dest rands =>
    unfold igmp_apply igmp_input
    dsimp only
    split
    · exact ⟨hd, t, rfl, haddr, huse⟩
    · split
      · exact ⟨hd, t, rfl, haddr, huse⟩
      · cases hfound : igmp_lookfor_group (hd :: t) dest with
        | none =>
          exact ⟨hd, t, rfl, haddr, huse⟩
        | some g =>
          dsimp only
          split
          · split
            · exact ⟨hd, igmp_delay_list t
                (if maxresp = 0 then IGMP_V1_DELAYING_MEMBER_TMR else maxresp)
                rands, rfl, haddr, huse⟩
            · split
              · split
                · apply igmp_update_inv hd t _ _ haddr huse
                  intro hc
                  constructor
                  · rw [(igmp_delaying_member_fields hd maxresp (rands 0)).1]
                    exact haddr
                  · rw [(igmp_delaying_member_fields hd maxresp (rands 0)).2]
                    exact huse
                · exact ⟨hd, t, rfl, haddr, huse⟩
              · exact ⟨hd, t, rfl, haddr, huse⟩
          · split
            · apply igmp_update_inv hd t dest _ haddr huse
              intro hc
              constructor
              · by_cases hs : hd.group_state = IgmpState.delayingMember <;>
                  simp [hs, haddr]
              · by_cases hs : hd.group_state = IgmpState.delayingMember <;>
                  simp [hs] <;> exact huse
            · exact ⟨hd, t, rfl, haddr, huse⟩
  | tmr alloc_ok =>
    unfold igmp_apply igmp_tmr
    refine ⟨(igmp_tmr_group alloc_ok hd).fst, (igmp_tmr alloc_ok t).fst, rfl,
      ?_, ?_⟩
    · rw [(igmp_tmr_group_fields alloc_ok hd).1]
      exact haddr
    · rw [(igmp_tmr_group_fields alloc_ok hd).2]
      exact huse

/-- C7 witness: the invariant holds on the sample list and is preserved by
a concrete leave of the non-head group. -/
theorem igmp_ops_preserve_head_invariant_witness :
    IgmpHeadInvariant
      (igmp_apply (.leave (Ipv4AddrFromBytes 239 1 2 3) true true) wGroups) :=
  igmp_ops_preserve_head_invariant
    (.leave (Ipv4AddrFromBytes 239 1 2 3) true true) wGroups
    ⟨wGroups.get ⟨0, by decide⟩, [wGroups.get ⟨1, by decide⟩], by decide,
     by decide, by decide⟩

/-- igmp_send with the leave type and a successful allocation transmits one
message to the all-routers address and leaves the group unchanged. -/
theorem igmp_send_leave (g : IgmpGroup) :
    igmp_send g IGMP_LEAVE_GROUP true =
      (g, [IgmpEvent.sendMsg IGMP_LEAVE_GROUP allrouters]) := by
  unfold igmp_send
  norm_num [IGMP_V2_MEMB_REPORT, IGMP_LEAVE_GROUP]

/-- C4: for a group entry that is not the head (the all-systems entry always
is the head) and is the only entry with its address, a leave at use count 1
removes and deletes the entry, sends exactly one Leave to 224.0.0.2 iff the
entry was the last reporter (and sends nothing else), and removes the MAC
filter through the hook; a leave at use count greater than 1 only decrements
the use count, with no list restructuring and no events. -/
theorem igmp_leavegroup_last_reference
    (groups : List IgmpGroup) (addr : Nat) (g : IgmpGroup)
    (hfind : igmp_lookfor_group groups addr = some g)
    (hhead : ∃ h0 t0, groups = h0 :: t0 ∧ h0.group_address ≠ addr)
    (huniq : groups.countP (fun x => ip4_addr_cmp x.group_address addr) = 1)
    (s : LwipStatus) (l2 : List IgmpGroup) (ev : List IgmpEvent)
    (hr : igmp_leavegroup_netif true groups addr true = (s, l2, ev)) :
    (g.use = 1 →
      s = .ok ∧
      l2.countP (fun x => ip4_addr_cmp x.group_address addr) = 0 ∧
      ev.count (IgmpEvent.sendMsg IGMP_LEAVE_GROUP allrouters) =
        (if g.last_reporter_flag then 1 else 0) ∧
      (∀ ty d, IgmpEvent.sendMsg ty d ∈ ev →
        ty = IGMP_LEAVE_GROUP ∧ d = allrouters ∧ g.last_reporter_flag = true) ∧
      IgmpEvent.macFilter false addr ∈ ev) ∧
    (2 ≤ g.use →
      s = .ok ∧ ev = [] ∧
      ∃ pre post, groups = pre ++ g :: post ∧
        l2 = pre ++ { g with use := g.use - 1 } :: post) := by
  have hfind' :
      List.find? (fun x => ip4_addr_cmp x.group_address addr) groups =
        some g := hfind
  obtain ⟨pre, post, hsplit, hpre, hgx⟩ :=
    find_eq_some_split (fun x => ip4_addr_cmp x.group_address addr) g groups
      hfind'
  have hga : g.group_address = addr := by
    simpa [ip4_addr_cmp] using hgx
  -- the found entry is not the head, so the prefix is nonempty
  obtain ⟨h0, t0, hg0, hne⟩ := hhead
  cases pre with
  | nil =>
    exfalso
    rw [hg0] at hsplit
    simp only [List.nil_append] at hsplit
    have : h0 = g := (List.cons.injEq _ _ _ _).mp hsplit |>.1
    rw [this, hga] at hne
    exact hne rfl
  | cons p0 pre1 =>
    have hpre1 : ∀ x ∈ pre1, ip4_addr_cmp x.group_address addr = false :=
      fun x hx => hpre x (List.mem_cons_of_mem p0 hx)
    have hp0 : ip4_addr_cmp p0.group_address addr = false :=
      hpre p0 (List.mem_cons_self p0 pre1)
    have hpre1_ne : ∀ x ∈ pre1, x ≠ g := by
      intro x hx hxg
      rw [hxg] at hx
      have := hpre1 g (by simpa [hxg] using hx)
      rw [hgx] at this
      cases this
    -- zero matches outside the found entry
    have hcount0 : pre1.countP (fun x => ip4_addr_cmp x.group_address addr)
        = 0 ∧ post.countP (fun x => ip4_addr_cmp x.group_address addr) = 0 := by
      rw [hsplit] at huniq
      simp [List.countP_cons, List.countP_append, hgx, hp0] at huniq
      constructor <;> omega
    unfold igmp_leavegroup_netif at hr
    rw [hfind] at hr
    dsimp only at hr
    constructor
    · intro huse1
      rw [if_pos (by omega)] at hr
      injection hr with hs hrest
      injection hrest with hl2 hev
      subst hs hl2 hev
      refine ⟨rfl, ?_, ?_, ?_, ?_⟩
      · -- the removal unlinks the only matching entry
        rw [hsplit]
        have hrg : igmp_remove_group ((p0 :: pre1) ++ g :: post) g =
            p0 :: igmp_remove_from_tail (pre1 ++ g :: post) g := rfl
        rw [hrg, igmp_remove_from_tail_append g pre1 post hpre1_ne]
        simp [List.countP_cons, List.countP_append, hcount0.1, hcount0.2, hp0]
      · by_cases hrep : g.last_reporter_flag <;>
          simp [hrep, igmp_send_leave, List.count_cons, List.count_append]
      · intro ty d hmem
        by_cases hrep : g.last_reporter_flag <;>
          simp [hrep, igmp_send_leave] at hmem
        · rcases hmem with ⟨hty, hd⟩
          exact ⟨hty, hd, hrep⟩
      · by_cases hrep : g.last_reporter_flag <;>
          simp [hrep, igmp_send_leave]
    · intro huse2
      rw [if_neg (by omega)] at hr
      injection hr with hs hrest
      injection hrest with hl2 hev
      subst hs hl2 hev
      refine ⟨rfl, rfl, p0 :: pre1, post, hsplit, ?_⟩
      rw [hsplit]
      exact igmp_update_group_append addr _ g hgx (p0 :: pre1) post hpre

/-- C4 witness: leaving the sample non-head group (use 1, last reporter)
removes it, sends one Leave to all-routers and pulls the MAC filter. -/
theorem igmp_leavegroup_last_reference_witness :
    ((wGroups.get ⟨1, by decide⟩).use = 1 →
      LwipStatus.ok = .ok ∧
      ([wGroups.get ⟨0, by decide⟩].countP
        (fun x => ip4_addr_cmp x.group_address (Ipv4AddrFromBytes 239 1 2 3)))
          = 0 ∧
      ([IgmpEvent.sendMsg IGMP_LEAVE_GROUP allrouters,
        IgmpEvent.macFilter false (Ipv4AddrFromBytes 239 1 2 3)].count
          (IgmpEvent.sendMsg IGMP_LEAVE_GROUP allrouters)) =
        (if (wGroups.get ⟨1, by decide⟩).last_reporter_flag then 1 else 0) ∧
      (∀ ty d, IgmpEvent.sendMsg ty d ∈
          [IgmpEvent.sendMsg IGMP_LEAVE_GROUP allrouters,
           IgmpEvent.macFilter false (Ipv4AddrFromBytes 239 1 2 3)] →
        ty = IGMP_LEAVE_GROUP ∧ d = allrouters ∧
          (wGroups.get ⟨1, by decide⟩).last_reporter_flag = true) ∧
      IgmpEvent.macFilter false (Ipv4AddrFromBytes 239 1 2 3) ∈
        [IgmpEvent.sendMsg IGMP_LEAVE_GROUP allrouters,
         IgmpEvent.macFilter false (Ipv4AddrFromBytes 239 1 2 3)]) ∧
    (2 ≤ (wGroups.get ⟨1, by decide⟩).use →
      LwipStatus.ok = .ok ∧
      ([IgmpEvent.sendMsg IGMP_LEAVE_GROUP allrouters,
        IgmpEvent.macFilter false (Ipv4AddrFromBytes 239 1 2 3)] :
          List IgmpEvent) = [] ∧
      ∃ pre post, wGroups = pre ++ (wGroups.get ⟨1, by decide⟩) :: post ∧
        [wGroups.get ⟨0, by decide⟩] =
          pre ++ { wGroups.get ⟨1, by decide⟩ with
                     use := (wGroups.get ⟨1, by decide⟩).use - 1 } :: post) :=
  igmp_leavegroup_last_reference wGroups (Ipv4AddrFromBytes 239 1 2 3)
    (wGroups.get ⟨1, by decide⟩) (by decide)
    ⟨wGroups.get ⟨0, by decide⟩, [wGroups.get ⟨1, by decide⟩], by decide,
      by decide⟩
    (by decide) LwipStatus.ok [wGroups.get ⟨0, by decide⟩]
    [IgmpEvent.sendMsg IGMP_LEAVE_GROUP allrouters,
     IgmpEvent.macFilter false (Ipv4AddrFromBytes 239 1 2 3)] (by decide)


/-! ## Helper lemmas for the ephemeral-port claims -/

/-- A false contains test excludes membership. -/
theorem nat_contains_false (l : List Nat) (a : Nat)
    (h : l.contains a = false) : a ∉ l := by
  intro hmem
  simp [List.contains, hmem] at h

/-- The candidate step of udp_new_port stays within the ephemeral range. -/
theorem udp_port_next_range (p : Nat)
    (h1 : UDP_LOCAL_PORT_RANGE_START ≤ p)
    (h2 : p ≤ UDP_LOCAL_PORT_RANGE_END) :
    UDP_LOCAL_PORT_RANGE_START ≤ udp_port_next p ∧
      udp_port_next p ≤ UDP_LOCAL_PORT_RANGE_END := by
  unfold udp_port_next
  simp only [UDP_LOCAL_PORT_RANGE_START, UDP_LOCAL_PORT_RANGE_END] at *
  split <;> omega

/-- Unfolding of the loop on a free candidate. -/
theorem udp_new_port_aux_free (ports : List Nat) (p n : Nat)
    (hcont : ports.contains (udp_port_next p) = false) :
    udp_new_port_aux ports p n =
      (udp_port_next p, udp_port_next p, n) := by
  conv_lhs => rw [udp_new_port_aux]
  rw [if_neg (by intro h; rw [hcont] at h; cases h)]

/-- Unfolding of the loop on a conflicting candidate with counter room. -/
theorem udp_new_port_aux_step (ports : List Nat) (p n : Nat)
    (hcont : ports.contains (udp_port_next p) = true)
    (hguard : ¬ n + 1 >
      UDP_LOCAL_PORT_RANGE_END - UDP_LOCAL_PORT_RANGE_START) :
    udp_new_port_aux ports p n =
      udp_new_port_aux ports (udp_port_next p) (n + 1) := by
  conv_lhs => rw [udp_new_port_aux]
  rw [if_pos hcont, if_neg hguard]

/-- Unfolding of the loop when the counter is exhausted. -/
theorem udp_new_port_aux_giveup (ports : List Nat) (p n : Nat)
    (hcont : ports.contains (udp_port_next p) = true)
    (hguard : n + 1 >
      UDP_LOCAL_PORT_RANGE_END - UDP_LOCAL_PORT_RANGE_START) :
    udp_new_port_aux ports p n = (0, udp_port_next p, n + 1) := by
  conv_lhs => rw [udp_new_port_aux]
  rw [if_pos hcont, if_pos hguard]

/-- Every nonzero result of the udp_new_port loop is an in-range port held
by no list entry. -/
theorem udp_new_port_aux_ok (ports : List Nat) :
    ∀ (fuel p n : Nat),
      UDP_LOCAL_PORT_RANGE_END - UDP_LOCAL_PORT_RANGE_START + 1 - n ≤ fuel →
      UDP_LOCAL_PORT_RANGE_START ≤ p → p ≤ UDP_LOCAL_PORT_RANGE_END →
      (udp_new_port_aux ports p n).fst ≠ 0 →
      UDP_LOCAL_PORT_RANGE_START ≤ (udp_new_port_aux ports p n).fst ∧
      (udp_new_port_aux ports p n).fst ≤ UDP_LOCAL_PORT_RANGE_END ∧
      ports.contains (udp_new_port_aux ports p n).fst = false := by
  intro fuel
  induction fuel with
  | zero =>
    intro p n hle hp1 hp2 hnz
    obtain ⟨hq1, hq2⟩ := udp_port_next_range p hp1 hp2
    by_cases hcont : ports.contains (udp_port_next p) = true
    · by_cases hguard : n + 1 >
          UDP_LOCAL_PORT_RANGE_END - UDP_LOCAL_PORT_RANGE_START
      · rw [udp_new_port_aux_giveup ports p n hcont hguard] at hnz
        exact absurd rfl hnz
      · exfalso
        simp only [UDP_LOCAL_PORT_RANGE_START, UDP_LOCAL_PORT_RANGE_END]
          at hle hguard
        omega
    · have hcf : ports.contains (udp_port_next p) = false := by
        simpa using hcont
      rw [udp_new_port_aux_free ports p n hcf]
      exact ⟨hq1, hq2, hcf⟩
  | succ fuel ih =>
    intro p n hle hp1 hp2 hnz
    obtain ⟨hq1, hq2⟩ := udp_port_next_range p hp1 hp2
    by_cases hcont : ports.contains (udp_port_next p) = true
    · by_cases hguard : n + 1 >
          UDP_LOCAL_PORT_RANGE_END - UDP_LOCAL_PORT_RANGE_START
      · rw [udp_new_port_aux_giveup ports p n hcont hguard] at hnz
        exact absurd rfl hnz
      · rw [udp_new_port_aux_step ports p n hcont hguard] at hnz ⊢
        refine ih (udp_port_next p) (n + 1) ?_ hq1 hq2 hnz
        simp only [UDP_LOCAL_PORT_RANGE_START, UDP_LOCAL_PORT_RANGE_END]
          at hle hguard ⊢
        omega
    · have hcf : ports.contains (udp_port_next p) = false := by
        simpa using hcont
      rw [udp_new_port_aux_free ports p n hcf]
      exact ⟨hq1, hq2, hcf⟩

/-- When every port of the ephemeral range is taken, the loop returns 0. -/
theorem udp_new_port_aux_exhausted (ports : List Nat)
    (hall : ∀ q, UDP_LOCAL_PORT_RANGE_START ≤ q →
      q ≤ UDP_LOCAL_PORT_RANGE_END → ports.contains q = true) :
    ∀ (fuel p n : Nat),
      UDP_LOCAL_PORT_RANGE_END - UDP_LOCAL_PORT_RANGE_START + 1 - n ≤ fuel →
      UDP_LOCAL_PORT_RANGE_START ≤ p → p ≤ UDP_LOCAL_PORT_RANGE_END →
      (udp_new_port_aux ports p n).fst = 0 := by
  intro fuel
  induction fuel with
  | zero =>
    intro p n hle hp1 hp2
    obtain ⟨hq1, hq2⟩ := udp_port_next_range p hp1 hp2
    have hcont := hall (udp_port_next p) hq1 hq2
    have hguard : n + 1 >
        UDP_LOCAL_PORT_RANGE_END - UDP_LOCAL_PORT_RANGE_START := by
      simp only [UDP_LOCAL_PORT_RANGE_START, UDP_LOCAL_PORT_RANGE_END]
        at hle ⊢
      omega
    rw [udp_new_port_aux_giveup ports p n hcont hguard]
  | succ fuel ih =>
    intro p n hle hp1 hp2
    obtain ⟨hq1, hq2⟩ := udp_port_next_range p hp1 hp2
    have hcont := hall (udp_port_next p) hq1 hq2
    by_cases hguard : n + 1 >
        UDP_LOCAL_PORT_RANGE_END - UDP_LOCAL_PORT_RANGE_START
    · rw [udp_new_port_aux_giveup ports p n hcont hguard]
    · rw [udp_new_port_aux_step ports p n hcont hguard]
      refine ih (udp_port_next p) (n + 1) ?_ hq1 hq2
      simp only [UDP_LOCAL_PORT_RANGE_START, UDP_LOCAL_PORT_RANGE_END]
        at hle hguard ⊢
      omega

/-- The loop performs at most range-size failed candidates: the final
conflict counter never exceeds the size of the ephemeral range. -/
theorem udp_new_port_aux_fails (ports : List Nat) :
    ∀ (fuel p n : Nat),
      UDP_LOCAL_PORT_RANGE_END - UDP_LOCAL_PORT_RANGE_START + 1 - n ≤ fuel →
      n ≤ UDP_LOCAL_PORT_RANGE_END - UDP_LOCAL_PORT_RANGE_START →
      (udp_new_port_aux ports p n).snd.snd ≤
        UDP_LOCAL_PORT_RANGE_END - UDP_LOCAL_PORT_RANGE_START + 1 := by
  intro fuel
  induction fuel with
  | zero =>
    intro p n hle hn
    exfalso
    simp only [UDP_LOCAL_PORT_RANGE_START, UDP_LOCAL_PORT_RANGE_END]
      at hle hn
    omega
  | succ fuel ih =>
    intro p n hle hn
    by_cases hcont : ports.contains (udp_port_next p) = true
    · by_cases hguard : n + 1 >
          UDP_LOCAL_PORT_RANGE_END - UDP_LOCAL_PORT_RANGE_START
      · rw [udp_new_port_aux_giveup ports p n hcont hguard]
        simp only [UDP_LOCAL_PORT_RANGE_START, UDP_LOCAL_PORT_RANGE_END]
          at hn ⊢
        omega
      · rw [udp_new_port_aux_step ports p n hcont hguard]
        refine ih (udp_port_next p) (n + 1) ?_ (by omega)
        simp only [UDP_LOCAL_PORT_RANGE_START, UDP_LOCAL_PORT_RANGE_END]
          at hle hguard ⊢
        omega
    · have hcf : ports.contains (udp_port_next p) = false := by
        simpa using hcont
      rw [udp_new_port_aux_free ports p n hcf]
      simp only [UDP_LOCAL_PORT_RANGE_START, UDP_LOCAL_PORT_RANGE_END]
        at hn ⊢
      omega

/-- Map with a function that fixes every member is the identity. -/
theorem map_id_on_mem {α : Type} (f : α → α) :
    ∀ l : List α, (∀ x ∈ l, f x = x) → l.map f = l := by
  intro l
  induction l with
  | nil => intro _; rfl
  | cons a t ih =>
    intro h
    simp only [List.map_cons, h a (List.mem_cons_self a t),
      ih fun x hx => h x (List.mem_cons_of_mem a hx)]

/-- C3: a bind with port 0 draws from udp_new_port.  Any granted port lies
in the ephemeral range [49152, 65535] and is held by no endpoint already on
the list; when every port of the range is bound, udp_bind returns ERR_USE
and the endpoint list is left unchanged (the endpoint is not inserted); and
the loop performs at most range-size failed candidates before giving up. -/
theorem udp_bind_ephemeral (select_zone : IpAddr → IpAddr) (st : UdpState)
    (pcb : UdpPcb) (ipaddr : IpAddr)
    (h1 : UDP_LOCAL_PORT_RANGE_START ≤ st.udp_port)
    (h2 : st.udp_port ≤ UDP_LOCAL_PORT_RANGE_END) :
    ((udp_bind select_zone st pcb ipaddr 0).fst = .ok →
      UDP_LOCAL_PORT_RANGE_START ≤
        (udp_bind select_zone st pcb ipaddr 0).snd.snd.local_port ∧
      (udp_bind select_zone st pcb ipaddr 0).snd.snd.local_port ≤
        UDP_LOCAL_PORT_RANGE_END ∧
      ∀ q ∈ st.pcbs, q.local_port ≠
        (udp_bind select_zone st pcb ipaddr 0).snd.snd.local_port) ∧
    ((∀ prt, UDP_LOCAL_PORT_RANGE_START ≤ prt →
        prt ≤ UDP_LOCAL_PORT_RANGE_END →
        (st.pcbs.map fun q => q.local_port).contains prt = true) →
      (udp_bind select_zone st pcb ipaddr 0).fst = .use ∧
      (udp_bind select_zone st pcb ipaddr 0).snd.fst.pcbs = st.pcbs) ∧
    (udp_new_port (st.pcbs.map fun q => q.local_port) st.udp_port).snd.snd ≤
      UDP_LOCAL_PORT_RANGE_END - UDP_LOCAL_PORT_RANGE_START + 1 := by
  have hfails : (udp_new_port (st.pcbs.map fun q => q.local_port)
      st.udp_port).snd.snd ≤
      UDP_LOCAL_PORT_RANGE_END - UDP_LOCAL_PORT_RANGE_START + 1 :=
    udp_new_port_aux_fails (st.pcbs.map fun q => q.local_port)
      (UDP_LOCAL_PORT_RANGE_END - UDP_LOCAL_PORT_RANGE_START + 1)
      st.udp_port 0 (by simp) (by omega)
  by_cases hz : (udp_new_port (st.pcbs.map fun q => q.local_port)
      st.udp_port).fst = 0
  · have hbind : udp_bind select_zone st pcb ipaddr 0 =
        (.use, { st with udp_port :=
          (udp_new_port (st.pcbs.map fun q => q.local_port)
            st.udp_port).snd.fst }, pcb) := by
      unfold udp_bind
      rw [if_pos rfl, if_pos hz]
    refine ⟨?_, ?_, hfails⟩
    · intro hok
      rw [hbind] at hok
      cases hok
    · intro _
      rw [hbind]
      exact ⟨rfl, rfl⟩
  · have hok3 := udp_new_port_aux_ok (st.pcbs.map fun q => q.local_port)
      (UDP_LOCAL_PORT_RANGE_END - UDP_LOCAL_PORT_RANGE_START + 1)
      st.udp_port 0 (by simp) h1 h2 hz
    have hbind : udp_bind select_zone st pcb ipaddr 0 =
        udp_bind_finish
          { st with udp_port :=
            (udp_new_port (st.pcbs.map fun q => q.local_port)
              st.udp_port).snd.fst }
          pcb
          (if ip_addr_lacks_zone ipaddr then select_zone ipaddr else ipaddr)
          (udp_new_port (st.pcbs.map fun q => q.local_port) st.udp_port).fst
          (st.pcbs.any fun q => q.id = pcb.id) := by
      unfold udp_bind
      rw [if_pos rfl, if_neg hz]
    refine ⟨?_, ?_, hfails⟩
    · intro _
      rw [hbind]
      unfold udp_bind_finish
      dsimp only
      refine ⟨hok3.1, hok3.2.1, ?_⟩
      intro q hq hqe
      have hmem : (udp_new_port (st.pcbs.map fun q => q.local_port)
          st.udp_port).fst ∈ st.pcbs.map fun q => q.local_port := by
        rw [List.mem_map]
        exact ⟨q, hq, hqe⟩
      exact nat_contains_false _ _ hok3.2.2 hmem
    · intro hall
      exact absurd
        (udp_new_port_aux_exhausted (st.pcbs.map fun q => q.local_port) hall
          (UDP_LOCAL_PORT_RANGE_END - UDP_LOCAL_PORT_RANGE_START + 1)
          st.udp_port 0 (by simp) h1 h2) hz

/-- C3 witness: from an empty list with udp_port at the range start, the
bound succeeds (first clause applicable) and the loop counter stays within
the range size. -/
theorem udp_bind_ephemeral_witness :
    ((udp_bind id { udp_port := 49152, pcbs := [] } wPcbPlain
        (IpAddr.v4 0) 0).fst = .ok →
      UDP_LOCAL_PORT_RANGE_START ≤
        (udp_bind id { udp_port := 49152, pcbs := [] } wPcbPlain
          (IpAddr.v4 0) 0).snd.snd.local_port ∧
      (udp_bind id { udp_port := 49152, pcbs := [] } wPcbPlain
        (IpAddr.v4 0) 0).snd.snd.local_port ≤ UDP_LOCAL_PORT_RANGE_END ∧
      ∀ q ∈ ({ udp_port := 49152, pcbs := [] } : UdpState).pcbs,
        q.local_port ≠ (udp_bind id { udp_port := 49152, pcbs := [] }
          wPcbPlain (IpAddr.v4 0) 0).snd.snd.local_port) ∧
    ((∀ prt, UDP_LOCAL_PORT_RANGE_START ≤ prt →
        prt ≤ UDP_LOCAL_PORT_RANGE_END →
        ((({ udp_port := 49152, pcbs := [] } : UdpState).pcbs.map
          fun q => q.local_port).contains prt) = true) →
      (udp_bind id { udp_port := 49152, pcbs := [] } wPcbPlain
        (IpAddr.v4 0) 0).fst = .use ∧
      (udp_bind id { udp_port := 49152, pcbs := [] } wPcbPlain
        (IpAddr.v4 0) 0).snd.fst.pcbs =
        ({ udp_port := 49152, pcbs := [] } : UdpState).pcbs) ∧
    (udp_new_port (({ udp_port := 49152, pcbs := [] } : UdpState).pcbs.map
        fun q => q.local_port) 49152).snd.snd ≤
      UDP_LOCAL_PORT_RANGE_END - UDP_LOCAL_PORT_RANGE_START + 1 :=
  udp_bind_ephemeral id { udp_port := 49152, pcbs := [] } wPcbPlain
    (IpAddr.v4 0) (by decide) (by decide)

/-- C8: rebinding an endpoint that is already on the list to its own
(ip, port) succeeds, leaves its local identity unchanged, and leaves the
whole list (and state) unchanged: no second entry is inserted.  The
conflict-freedom hypothesis is the property udp_bind itself establishes for
every pair of coexisting endpoints. -/
theorem udp_bind_rebind_idempotent (select_zone : IpAddr → IpAddr)
    (st : UdpState) (pcb : UdpPcb)
    (hmem : pcb ∈ st.pcbs)
    (hids : (st.pcbs.map fun q => q.id).Nodup)
    (hport : ¬ pcb.local_port = 0)
    (hzone : ip_addr_lacks_zone pcb.local_ip = false)
    (hconf : ∀ q ∈ st.pcbs, q.id ≠ pcb.id → q.local_port = pcb.local_port →
      (compare_ip_addr q.local_ip pcb.local_ip ||
        is_ip_addr_any pcb.local_ip || is_ip_addr_any q.local_ip) = true →
      pcb.so_reuseaddr = true ∧ q.so_reuseaddr = true) :
    udp_bind select_zone st pcb pcb.local_ip pcb.local_port =
      (.ok, st, pcb) := by
  have hz2 : (if ip_addr_lacks_zone pcb.local_ip then select_zone pcb.local_ip
      else pcb.local_ip) = pcb.local_ip := by
    rw [if_neg (by intro h; rw [hzone] at h; cases h)]
  have hnoconf : (st.pcbs.any fun q =>
      udp_bind_conflict pcb q pcb.local_ip pcb.local_port) = false := by
    rw [List.any_eq_false]
    intro q hq
    have hfalse : udp_bind_conflict pcb q pcb.local_ip pcb.local_port
        = false := by
      unfold udp_bind_conflict
      by_cases hid : q.id = pcb.id
      · simp [hid]
      · by_cases hlp : q.local_port = pcb.local_port
        · by_cases hov : (compare_ip_addr q.local_ip pcb.local_ip ||
              is_ip_addr_any pcb.local_ip || is_ip_addr_any q.local_ip) = true
          · obtain ⟨hr1, hr2⟩ := hconf q hq hid hlp hov
            simp [hr1, hr2]
          · simp only [Bool.not_eq_true] at hov
            simp [hov]
        · simp [hlp]
    simp [hfalse]
  have hrebind : (st.pcbs.any fun q => q.id = pcb.id) = true := by
    rw [List.any_eq_true]
    exact ⟨pcb, hmem, by simp⟩
  have hpcb2 : ({ pcb with
      local_ip := pcb.local_ip, local_port := pcb.local_port } : UdpPcb) =
      pcb := rfl
  unfold udp_bind
  rw [hz2, if_neg hport,
    if_neg (by intro h; rw [hnoconf] at h; cases h)]
  unfold udp_bind_finish
  dsimp only
  rw [hrebind]
  simp only [if_true, hpcb2]
  have hmap : st.pcbs.map (fun q => if q.id = pcb.id then pcb else q) =
      st.pcbs := by
    apply map_id_on_mem
    intro x hx
    by_cases hxid : x.id = pcb.id
    · have : x = pcb := List.inj_on_of_nodup_map hids hx hmem hxid
      rw [if_pos hxid, this]
    · rw [if_neg hxid]
  rw [hmap]

/-- C8 witness: a singleton list, rebinding the only endpoint to its own
identity returns ERR_OK and the very same state. -/
theorem udp_bind_rebind_idempotent_witness :
    udp_bind id { udp_port := 50000, pcbs := [wPcbPlain] } wPcbPlain
      wPcbPlain.local_ip wPcbPlain.local_port =
      (.ok, { udp_port := 50000, pcbs := [wPcbPlain] }, wPcbPlain) :=
  udp_bind_rebind_idempotent id { udp_port := 50000, pcbs := [wPcbPlain] }
    wPcbPlain (by decide) (by decide) (by decide) (by decide)
    (by
      intro q hq h1 _ _
      exact absurd (congrArg UdpPcb.id (List.mem_singleton.mp hq)) h1)

/-! ## Helper lemmas for the udp_input fan-out claim -/

/-- The split returned by udp_find_perfect reassembles the list, and the
found PCB fully matches. -/
theorem udp_find_perfect_split (pkt : UdpPkt) (inp : NetIfc) (b : Bool) :
    ∀ (pcbs pre post : List UdpPcb) (q : UdpPcb),
      udp_find_perfect pkt inp b pcbs = some (pre, q, post) →
      pcbs = pre ++ q :: post ∧ udp_perfect_match q pkt inp b = true := by
  intro pcbs
  induction pcbs with
  | nil => intro pre post q h; cases h
  | cons a t ih =>
    intro pre post q h
    unfold udp_find_perfect at h
    by_cases hp : udp_perfect_match a pkt inp b = true
    · rw [if_pos hp] at h
      injection h with h2
      obtain ⟨h3, h4⟩ := Prod.mk.injEq _ _ _ _ ▸ h2
      obtain ⟨h5, h6⟩ := Prod.mk.injEq _ _ _ _ ▸ h4
      subst h3 h5 h6
      exact ⟨rfl, hp⟩
    · rw [if_neg hp] at h
      cases hfp : udp_find_perfect pkt inp b t with
      | none => rw [hfp] at h; cases h
      | some trip =>
        obtain ⟨pre2, q2, post2⟩ := trip
        rw [hfp] at h
        dsimp only at h
        injection h with h2
        obtain ⟨h3, h4⟩ := Prod.mk.injEq _ _ _ _ ▸ h2
        obtain ⟨h5, h6⟩ := Prod.mk.injEq _ _ _ _ ▸ h4
        obtain ⟨hsp, hq⟩ := ih pre2 post2 q2 hfp
        subst h5 h6
        rw [← h3]
        exact ⟨by rw [hsp]; rfl, hq⟩

/-- The MRU move of udp_input permutes the PCB list. -/
theorem udp_input_reorder_perm (pkt : UdpPkt) (inp : NetIfc) (b : Bool)
    (pcbs : List UdpPcb) : (udp_input_reorder pkt inp b pcbs).Perm pcbs := by
  unfold udp_input_reorder
  cases hfp : udp_find_perfect pkt inp b pcbs with
  | none => exact List.Perm.refl _
  | some trip =>
    obtain ⟨pre, q, post⟩ := trip
    obtain ⟨hsp, _⟩ := udp_find_perfect_split pkt inp b pcbs pre post q hfp
    cases pre with
    | nil => exact List.Perm.refl _
    | cons p0 pre1 =>
      dsimp only
      rw [hsp]
      exact List.perm_middle.symm

/-- One step of the unconnected-candidate fold either keeps the accumulator
or switches to the scanned PCB, which then matches locally. -/
theorem udp_uncon_step_cases (pkt : UdpPkt) (inp : NetIfc) (b : Bool)
    (acc : Option UdpPcb) (a pcb : UdpPcb)
    (h : udp_uncon_step pkt inp b acc a = some pcb) :
    acc = some pcb ∨
      (pcb = a ∧ a.local_port = pkt.dst_port ∧
        udp_input_local_match a inp pkt.dst_ip b = true) := by
  unfold udp_uncon_step at h
  by_cases hm : (a.local_port = pkt.dst_port &&
      udp_input_local_match a inp pkt.dst_ip b) = true
  · rw [if_pos hm] at h
    simp only [Bool.and_eq_true, decide_eq_true_eq] at hm
    cases hconn : a.connected with
    | true =>
      rw [hconn] at h
      simp at h
      exact Or.inl h
    | false =>
      rw [hconn] at h
      simp only [Bool.not_false, if_true] at h
      cases acc with
      | none =>
        injection h with h2
        exact Or.inr ⟨h2.symm, hm.1, hm.2⟩
      | some u =>
        dsimp only at h
        split at h
        · split at h
          · injection h with h2
            exact Or.inr ⟨h2.symm, hm.1, hm.2⟩
          · injection h with h2
            exact Or.inl (by rw [h2])
        · split at h
          · injection h with h2
            exact Or.inr ⟨h2.symm, hm.1, hm.2⟩
          · injection h with h2
            exact Or.inl (by rw [h2])
  · rw [if_neg hm] at h
    exact Or.inl h

/-- The unconnected-candidate fold only produces members of the list that
match the destination port and the local-match rules. -/
theorem udp_find_uncon_fold_spec (pkt : UdpPkt) (inp : NetIfc) (b : Bool) :
    ∀ (l : List UdpPcb) (acc : Option UdpPcb) (pcb : UdpPcb),
      l.foldl (udp_uncon_step pkt inp b) acc = some pcb →
      acc = some pcb ∨
        (pcb ∈ l ∧ pcb.local_port = pkt.dst_port ∧
          udp_input_local_match pcb inp pkt.dst_ip b = true) := by
  intro l
  induction l with
  | nil => intro acc pcb h; exact Or.inl h
  | cons a t ih =>
    intro acc pcb h
    rw [List.foldl_cons] at h
    rcases ih (udp_uncon_step pkt inp b acc a) pcb h with h2 | h2
    · rcases udp_uncon_step_cases pkt inp b acc a pcb h2 with h3 | h3
      · exact Or.inl h3
      · obtain ⟨rfl, h4, h5⟩ := h3
        exact Or.inr ⟨List.mem_cons_self _ _, h4, h5⟩
    · exact Or.inr ⟨List.mem_cons_of_mem a h2.1, h2.2⟩

/-- The PCB selected by udp_input is on the list and satisfies the
destination-port and local-match rules. -/
theorem udp_input_primary_spec (pkt : UdpPkt) (inp : NetIfc) (b : Bool)
    (pcbs : List UdpPcb) (pcb : UdpPcb)
    (h : udp_input_primary pkt inp b pcbs = some pcb) :
    pcb ∈ pcbs ∧ pcb.local_port = pkt.dst_port ∧
      udp_input_local_match pcb inp pkt.dst_ip b = true := by
  unfold udp_input_primary at h
  cases hfp : udp_find_perfect pkt inp b pcbs with
  | some trip =>
    obtain ⟨pre, q, post⟩ := trip
    rw [hfp] at h
    dsimp only at h
    injection h with h2
    obtain ⟨hsp, hq⟩ := udp_find_perfect_split pkt inp b pcbs pre post q hfp
    simp only [udp_perfect_match, Bool.and_eq_true, decide_eq_true_eq] at hq
    subst h2
    refine ⟨?_, hq.1.1.1, hq.1.1.2⟩
    rw [hsp]
    exact List.mem_append_right pre (List.mem_cons_self _ _)
  | none =>
    rw [hfp] at h
    rcases udp_find_uncon_fold_spec pkt inp b pcbs none pcb h with h2 | h2
    · cases h2
    · exact h2

/-- Shape of the udp_input event trace on the REUSEADDR broadcast/multicast
path: the clones produced by the fan-out loop over the (reordered) list,
followed by the delivery of the original buffer to the primary PCB. -/
theorem udp_input_fanout_events (pcbs : List UdpPcb) (pkt : UdpPkt)
    (inp : NetIfc) (b : Bool) (plen : Nat) (pcb : UdpPcb)
    (hlen : ¬ plen < 8)
    (hprim : udp_input_primary pkt inp b pcbs = some pcb)
    (hreuse : pcb.so_reuseaddr = true)
    (hbm : (b || ip_addr_ismulticast pkt.dst_ip) = true)
    (hrecv : pcb.has_recv = true) :
    (udp_input pcbs pkt inp b true plen).snd =
      ((udp_input_reorder pkt inp b pcbs).filterMap fun m =>
        if m.id ≠ pcb.id ∧ m.local_port = pkt.dst_port ∧
            udp_input_local_match m inp pkt.dst_ip b = true ∧
            m.has_recv = true then
          some (UdpEvent.cloneTo m.id)
        else none) ++ [UdpEvent.origTo pcb.id] := by
  unfold udp_input
  rw [if_neg hlen]
  dsimp only
  rw [hprim]
  simp [hreuse, hbm, hrecv]

/-- C2: when the primary matching endpoint of a broadcast/multicast datagram
has REUSEADDR (and a recv callback), udp_input delivers exactly one clone to
every other endpoint on the list that matches the destination port and the
local-match rules and has a recv callback; all clones are delivered before
the original buffer goes to the primary endpoint; and endpoints that do not
match receive nothing. -/
theorem udp_input_reuseaddr_clones_all (pcbs : List UdpPcb) (pkt : UdpPkt)
    (inp : NetIfc) (b : Bool) (plen : Nat) (pcb : UdpPcb)
    (hlen : ¬ plen < 8)
    (hprim : udp_input_primary pkt inp b pcbs = some pcb)
    (hreuse : pcb.so_reuseaddr = true)
    (hbm : (b || ip_addr_ismulticast pkt.dst_ip) = true)
    (hrecv : pcb.has_recv = true)
    (hids : (pcbs.map fun q => q.id).Nodup) :
    (∀ m ∈ pcbs, m.id ≠ pcb.id → m.local_port = pkt.dst_port →
      udp_input_local_match m inp pkt.dst_ip b = true → m.has_recv = true →
      ((udp_input pcbs pkt inp b true plen).snd.count
        (UdpEvent.cloneTo m.id)) = 1) ∧
    (∃ cs, (udp_input pcbs pkt inp b true plen).snd =
        cs ++ [UdpEvent.origTo pcb.id] ∧
      ∀ e ∈ cs, ∃ m, m ∈ pcbs ∧ e = UdpEvent.cloneTo m.id ∧
        m.id ≠ pcb.id ∧ m.local_port = pkt.dst_port ∧
        udp_input_local_match m inp pkt.dst_ip b = true ∧
        m.has_recv = true) ∧
    (∀ m ∈ pcbs, ¬ (m.local_port = pkt.dst_port ∧
        udp_input_local_match m inp pkt.dst_ip b = true) →
      ∀ e ∈ (udp_input pcbs pkt inp b true plen).snd,
        e ≠ UdpEvent.cloneTo m.id ∧ e ≠ UdpEvent.origTo m.id) := by
  have hev := udp_input_fanout_events pcbs pkt inp b plen pcb hlen hprim
    hreuse hbm hrecv
  have hperm := udp_input_reorder_perm pkt inp b pcbs
  have hprims := udp_input_primary_spec pkt inp b pcbs pcb hprim
  have hinj : ∀ x ∈ pcbs, ∀ y ∈ pcbs, x.id = y.id → x = y :=
    fun x hx y hy hxy => List.inj_on_of_nodup_map hids hx hy hxy
  have hnodup : pcbs.Nodup := List.Nodup.of_map _ hids
  refine ⟨?_, ?_, ?_⟩
  · -- exactly one clone to each matching other endpoint
    intro m hm hne hport hmatch hrecvm
    rw [hev, List.count_append]
    have hz : ([UdpEvent.origTo pcb.id].count (UdpEvent.cloneTo m.id)) = 0 :=
      by simp
    rw [hz, Nat.add_zero, List.count_filterMap,
      List.Perm.countP_eq _ hperm]
    have hcong : pcbs.countP (fun a =>
        (if a.id ≠ pcb.id ∧ a.local_port = pkt.dst_port ∧
            udp_input_local_match a inp pkt.dst_ip b = true ∧
            a.has_recv = true then
          some (UdpEvent.cloneTo a.id)
        else none) == some (UdpEvent.cloneTo m.id)) =
        pcbs.countP (fun a => a == m) := by
      apply List.countP_congr
      intro x hx
      constructor
      · intro hx2
        by_cases hc : x.id ≠ pcb.id ∧ x.local_port = pkt.dst_port ∧
            udp_input_local_match x inp pkt.dst_ip b = true ∧
            x.has_recv = true
        · rw [if_pos hc, beq_iff_eq] at hx2
          injection hx2 with hx3
          injection hx3 with hid
          simpa using hinj x hx m hm hid
        · rw [if_neg hc] at hx2
          cases hx2
      · intro hx2
        rw [beq_iff_eq] at hx2
        subst hx2
        rw [if_pos ⟨hne, hport, hmatch, hrecvm⟩, beq_iff_eq]
    rw [hcong, ← List.count_eq_countP]
    exact List.count_eq_one_of_mem hnodup hm
  · -- clones precede the original and target matching other endpoints
    refine ⟨_, hev, ?_⟩
    intro e he
    rw [List.mem_filterMap] at he
    obtain ⟨a, ha, hfa⟩ := he
    by_cases hc : a.id ≠ pcb.id ∧ a.local_port = pkt.dst_port ∧
        udp_input_local_match a inp pkt.dst_ip b = true ∧ a.has_recv = true
    · rw [if_pos hc] at hfa
      injection hfa with hfa2
      exact ⟨a, hperm.mem_iff.mp ha, hfa2.symm, hc.1, hc.2.1, hc.2.2.1,
        hc.2.2.2⟩
    · rw [if_neg hc] at hfa
      cases hfa
  · -- non-matching endpoints receive nothing
    intro m hm hnm e he
    rw [hev, List.mem_append] at he
    rcases he with he | he
    · rw [List.mem_filterMap] at he
      obtain ⟨a, ha, hfa⟩ := he
      by_cases hc : a.id ≠ pcb.id ∧ a.local_port = pkt.dst_port ∧
          udp_input_local_match a inp pkt.dst_ip b = true ∧
          a.has_recv = true
      · rw [if_pos hc] at hfa
        injection hfa with hfa2
        subst hfa2
        constructor
        · intro habs
          injection habs with hid
          have : a = m := hinj a (hperm.mem_iff.mp ha) m hm hid
          subst this
          exact hnm ⟨hc.2.1, hc.2.2.1⟩
        · intro habs
          cases habs
      · rw [if_neg hc] at hfa
        cases hfa
    · rw [List.mem_singleton] at he
      subst he
      constructor
      · intro habs
        cases habs
      · intro habs
        injection habs with hid
        have : pcb = m := hinj pcb hprims.1 m hm hid
        subst this
        exact hnm ⟨hprims.2.1, hprims.2.2⟩

/-- C2 witness: two REUSEADDR endpoints on (192.0.2.3, 5000); a global
broadcast to port 5000 clones to the second and then delivers the original
to the first. -/
theorem udp_input_reuseaddr_clones_all_witness :
    (∀ m ∈ [wPcbPlain, wPcbPlain2], m.id ≠ wPcbPlain.id →
      m.local_port = wPkt.dst_port →
      udp_input_local_match m wNetIfc wPkt.dst_ip true = true →
      m.has_recv = true →
      ((udp_input [wPcbPlain, wPcbPlain2] wPkt wNetIfc true true 12).snd.count
        (UdpEvent.cloneTo m.id)) = 1) ∧
    (∃ cs,
      (udp_input [wPcbPlain, wPcbPlain2] wPkt wNetIfc true true 12).snd =
        cs ++ [UdpEvent.origTo wPcbPlain.id] ∧
      ∀ e ∈ cs, ∃ m, m ∈ [wPcbPlain, wPcbPlain2] ∧
        e = UdpEvent.cloneTo m.id ∧ m.id ≠ wPcbPlain.id ∧
        m.local_port = wPkt.dst_port ∧
        udp_input_local_match m wNetIfc wPkt.dst_ip true = true ∧
        m.has_recv = true) ∧
    (∀ m ∈ [wPcbPlain, wPcbPlain2], ¬ (m.local_port = wPkt.dst_port ∧
        udp_input_local_match m wNetIfc wPkt.dst_ip true = true) →
      ∀ e ∈ (udp_input [wPcbPlain, wPcbPlain2] wPkt wNetIfc
          true true 12).snd,
        e ≠ UdpEvent.cloneTo m.id ∧ e ≠ UdpEvent.origTo m.id) :=
  udp_input_reuseaddr_clones_all [wPcbPlain, wPcbPlain2] wPkt wNetIfc true 12
    wPcbPlain (by decide) (by decide) (by decide) (by decide) (by decide)
    (by decide)
